import Mathlib

/-
Verification of the relationship-inference pipeline of the bigquery-to-erd
tool (package `bigquery_to_erd`).  The Python sources are shallowly embedded:
pure functions become Lean functions, Python floats become rationals (`ℚ`),
Python dicts become insertion-ordered association lists, Python sets of
strings become lists used only through membership, and the stable `list.sort`
becomes a stable insertion sort.  Regular-expression tests from the source
(`^id$`, `^.*_id$`, `^pk_.*$`, ... with `re.IGNORECASE`) are embedded as the
corresponding case-insensitive equality / suffix / prefix tests.
-/

namespace BqErd

/-- Column metadata, from `models.py` `ColumnInfo`.  The two key flags are
mutable in the source and recomputed by the schema analyzer. -/
structure ColumnInfo where
  name : String
  data_type : String
  mode : String
  description : Option String := none
  is_primary_key : Bool := false
  is_foreign_key : Bool := false
  max_length : Option Nat := none
  precision : Option Nat := none
  scale : Option Nat := none
deriving DecidableEq, Repr

/-- Table metadata, from `models.py` `TableSchema`. -/
structure TableSchema where
  table_id : String
  dataset_id : String
  project_id : String
  description : Option String := none
  columns : List ColumnInfo := []
  num_rows : Option Nat := none
  num_bytes : Option Nat := none
  table_type : String := "TABLE"
deriving DecidableEq, Repr

/-- Relationship between two tables, from `models.py` `Relationship`.
The source stores `relationship_type` as a string-valued enum and the data
tester later appends a `"_data_validated"` suffix to it, producing a plain
string, so the field is embedded as `String` (the enum values are the
constants below).  `confidence` is validated to lie in `[0,1]` by the
pydantic field declaration `Field(..., ge=0.0, le=1.0)`. -/
structure Relationship where
  source_table : String
  source_column : String
  target_table : String
  target_column : String
  relationship_type : String
  confidence : ℚ
  detection_method : String
  is_custom : Bool := false
deriving DecidableEq, Repr

/-- Enum value `RelationshipType.ONE_TO_ONE` from `models.py`. -/
def RelationshipType.ONE_TO_ONE : String := "one_to_one"

/-- Enum value `RelationshipType.ONE_TO_MANY` from `models.py`. -/
def RelationshipType.ONE_TO_MANY : String := "one_to_many"

/-- Enum value `RelationshipType.MANY_TO_ONE` from `models.py`. -/
def RelationshipType.MANY_TO_ONE : String := "many_to_one"

/-- Enum value `RelationshipType.MANY_TO_MANY` from `models.py`. -/
def RelationshipType.MANY_TO_MANY : String := "many_to_many"

/-- Concrete relationship used by the concrete-state parts of the theorems
below (Python float `0.8` embedded as the exact rational `mkRat 8 10`). -/
def sampleRel : Relationship :=
  { source_table := "fact_orders"
    source_column := "user_id"
    target_table := "dim_users"
    target_column := "user_id"
    relationship_type := RelationshipType.MANY_TO_ONE
    confidence := mkRat 8 10
    detection_method := "foreign_key" }

/-- Concrete user-declared relationship with the same identity key and the
same confidence as `sampleRel`. -/
def sampleRelCustom : Relationship :=
  { source_table := "fact_orders"
    source_column := "user_id"
    target_table := "dim_users"
    target_column := "user_id"
    relationship_type := RelationshipType.MANY_TO_ONE
    confidence := mkRat 8 10
    detection_method := "custom_rules"
    is_custom := true }

/-- Reverse-direction companion of `sampleRel`: connects the same two tables
with source and target swapped. -/
def sampleRelReversed : Relationship :=
  { source_table := "dim_users"
    source_column := "user_id"
    target_table := "fact_orders"
    target_column := "user_id"
    relationship_type := RelationshipType.MANY_TO_ONE
    confidence := mkRat 8 10
    detection_method := "foreign_key" }

/-- Python substring containment `needle in hay` on strings. -/
def strContainsSub (hay needle : String) : Bool :=
  decide (needle.toList <:+: hay.toList)

/- ----------------------------------------------------------------------
Schema analyzer (`schema_analyzer.py`, class `SchemaAnalyzer`).
---------------------------------------------------------------------- -/

/-- Match of a column name against the `primary_key_patterns` list of
`SchemaAnalyzer.__init__` (regexes `^id$`, `^.*_id$`, `^.*_key$`, `^.*_pk$`,
`^pk_.*$`, applied with `re.IGNORECASE`). -/
def pk_name_patterns_match (name : String) : Bool :=
  let n := name.toLower
  n == "id" || n.endsWith "_id" || n.endsWith "_key" || n.endsWith "_pk"
    || n.startsWith "pk_"

/-- Match of a column name against the `foreign_key_patterns` list of
`SchemaAnalyzer.__init__` (regexes `^.*_id$`, `^.*_fk$`, `^.*_key$`,
`^fk_.*$`, applied with `re.IGNORECASE`). -/
def fk_name_patterns_match (name : String) : Bool :=
  let n := name.toLower
  n.endsWith "_id" || n.endsWith "_fk" || n.endsWith "_key" || n.startsWith "fk_"

/-- Type allow-list `numeric_types` used by the candidate gates of
`schema_analyzer.py`. -/
def analyzer_allowed_types : List String := ["INTEGER", "INT64", "STRING", "BYTES"]

/-- Embedding of `SchemaAnalyzer._is_primary_key_candidate`.  The
`table_schema` argument is unused in the source as well. -/
def is_primary_key_candidate (column : ColumnInfo) (_table_schema : TableSchema) : Bool :=
  if column.mode == "REPEATED" then false
  else if column.mode == "NULLABLE" && column.name.toLower != "id" then false
  else if !(analyzer_allowed_types.contains column.data_type.toUpper) then false
  else true

/-- Embedding of `SchemaAnalyzer._is_data_warehouse_primary_key`. -/
def is_data_warehouse_primary_key (column : ColumnInfo) (table_schema : TableSchema) : Bool :=
  let table_name := table_schema.table_id.toLower
  let cname := column.name.toLower
  if table_name.startsWith "dim_" then
    (["id", "key", "sk", "surrogate_key"].contains cname)
      || (cname.endsWith "_id" && !(cname.endsWith "_fk"))
  else if table_name.startsWith "fact_" then
    cname.endsWith "_id" && !(cname.endsWith "_fk")
  else if table_name.startsWith "bridge_" || table_name.startsWith "l_" then
    ["id", "key", "relationship_id"].contains cname
  else false

/-- Embedding of `SchemaAnalyzer.identify_primary_key`: some primary-key
naming pattern matches and the candidate gate passes, or the data-warehouse
convention rules apply. -/
def identify_primary_key (column : ColumnInfo) (table_schema : TableSchema) : Bool :=
  (pk_name_patterns_match column.name && is_primary_key_candidate column table_schema)
    || is_data_warehouse_primary_key column table_schema

/-- Embedding of `SchemaAnalyzer._is_foreign_key_candidate`. -/
def is_foreign_key_candidate (column : ColumnInfo) (table_schema : TableSchema) : Bool :=
  if column.mode == "REPEATED" then false
  else if identify_primary_key column table_schema then false
  else if !(analyzer_allowed_types.contains column.data_type.toUpper) then false
  else true

/-- Embedding of `SchemaAnalyzer.identify_foreign_key`. -/
def identify_foreign_key (column : ColumnInfo) (table_schema : TableSchema) : Bool :=
  fk_name_patterns_match column.name && is_foreign_key_candidate column table_schema

/-- Embedding of `SchemaAnalyzer.extract_column_info`: rebuild the column
with freshly computed key flags, all other fields copied. -/
def extract_column_info (column : ColumnInfo) (table_schema : TableSchema) : ColumnInfo :=
  { name := column.name
    data_type := column.data_type
    mode := column.mode
    description := column.description
    is_primary_key := identify_primary_key column table_schema
    is_foreign_key := identify_foreign_key column table_schema
    max_length := column.max_length
    precision := column.precision
    scale := column.scale }

/-- Embedding of `SchemaAnalyzer.parse_table_schema`: re-annotate every
column of the table.  In the source the columns list is replaced only after
the whole loop, so each `extract_column_info` call sees the original table. -/
def parse_table_schema (schema : TableSchema) : TableSchema :=
  { schema with columns := schema.columns.map (fun c => extract_column_info c schema) }

/-- Metrics dictionary built (but never returned) by
`SchemaAnalyzer.analyze_schema_complexity`. -/
structure ComplexityMetrics where
  total_columns : Nat
  primary_keys : Nat
  foreign_keys : Nat
  nullable_columns : Nat
  required_columns : Nat
  repeated_columns : Nat
  data_types : Nat
  has_description : Bool
  table_size_mb : ℚ
  row_count : Nat
deriving DecidableEq, Repr

/-- The dictionary assembled in the body of
`SchemaAnalyzer.analyze_schema_complexity` (lines 295 to 306). -/
def analyze_schema_complexity_metrics (schema : TableSchema) : ComplexityMetrics :=
  { total_columns := schema.columns.length
    primary_keys := (schema.columns.filter (fun c => c.is_primary_key)).length
    foreign_keys := (schema.columns.filter (fun c => c.is_foreign_key)).length
    nullable_columns := (schema.columns.filter (fun c => c.mode == "NULLABLE")).length
    required_columns := (schema.columns.filter (fun c => c.mode == "REQUIRED")).length
    repeated_columns := (schema.columns.filter (fun c => c.mode == "REPEATED")).length
    data_types := (schema.columns.map (fun c => c.data_type)).toFinset.card
    has_description := 0 < (schema.columns.filter (fun c => c.description.isSome)).length
    table_size_mb := ((schema.num_bytes.getD 0 : ℚ)) / (1024 * 1024)
    row_count := schema.num_rows.getD 0 }

/-- Embedding of `SchemaAnalyzer.analyze_schema_complexity`: the body binds
the metrics dictionary to a local variable and then falls off the end of the
function without a `return` statement, so the Python function returns
`None`. -/
def analyze_schema_complexity (schema : TableSchema) : Option ComplexityMetrics :=
  let _metrics := analyze_schema_complexity_metrics schema
  none

/- ----------------------------------------------------------------------
Data relationship tester (`data_relationship_tester.py`).
Sample values are embedded as integers; the sample source (BigQuery client
or CLI fallback) is an external collaborator and is passed in as a function
returning either values or an error.
---------------------------------------------------------------------- -/

/-- External sample source: table name, column name, row limit to a list of
non-null scalar values, or a failure. -/
def SampleSource : Type := String → String → Nat → Except String (List Int)

/-- Result record `DataTestResult` from `data_relationship_tester.py`. -/
structure DataTestResult where
  referential_integrity : ℚ
  type_compatibility : ℚ
  distribution_similarity : ℚ
  overall_confidence : ℚ
  sample_size : Nat
  orphan_count : Nat
  total_source_records : Nat
deriving DecidableEq, Repr

/-- Embedding of `DataRelationshipTester._get_sample_data`: on any failure of
the underlying source the exception is caught and an empty list is returned.
The per-run memo cache `self.sample_cache` is semantically transparent here
because the embedded sample source is a pure function of its arguments. -/
def get_sample_data (src : SampleSource) (table_name column_name : String)
    (limit : Nat) : List Int :=
  match src table_name column_name limit with
  | .ok values => values
  | .error _ => []

/-- Embedding of `DataRelationshipTester._calculate_referential_integrity`:
the fraction of distinct source values that also occur among the target
values; `0` when there are no source samples. -/
def calculate_referential_integrity (source_values target_values : List Int) : ℚ :=
  if source_values = [] then 0
  else
    let source_set := source_values.toFinset
    let target_set := target_values.toFinset
    let overlap := (source_set ∩ target_set).card
    let total_source := source_set.card
    if 0 < total_source then (overlap : ℚ) / (total_source : ℚ) else 0

/- ----------------------------------------------------------------------
Association lists: the embedding of Python dicts.  Entries are kept in
insertion order; assignment to a present key updates the entry in place,
assignment to an absent key appends at the end, exactly as for a Python
dict.
---------------------------------------------------------------------- -/

/-- Dict lookup `m.get(k)` on an insertion-ordered association list. -/
def assocFind {α β : Type} [DecidableEq α] (m : List (α × β)) (k : α) : Option β :=
  match m with
  | [] => none
  | (k', v) :: rest => if k' = k then some v else assocFind rest k

/-- Dict assignment `m[k] = v` on an insertion-ordered association list. -/
def assocSet {α β : Type} [DecidableEq α] (m : List (α × β)) (k : α) (v : β) :
    List (α × β) :=
  match m with
  | [] => [(k, v)]
  | (k', v') :: rest => if k' = k then (k', v) :: rest else (k', v') :: assocSet rest k v

/-- Keys of an association list, in insertion order. -/
def assocKeys {α β : Type} (m : List (α × β)) : List α := m.map Prod.fst

/-- Python builtin `min` on two floats (ties keep the first argument). -/
def pymin (a b : ℚ) : ℚ := if a ≤ b then a else b

/-- Python builtin `max` on two floats (ties keep the first argument). -/
def pymax (a b : ℚ) : ℚ := if b ≤ a then a else b

/- ----------------------------------------------------------------------
Stable sorting.  Python `list.sort(key=..., reverse=True)` is a stable sort;
it is embedded as an insertion sort where `le x y` means that `x` may be
placed before `y` (so with `le x y = (key y ≤ key x)` the result is the
stable descending sort by `key`).
---------------------------------------------------------------------- -/

/-- Insert an element before the first already-placed element it may
precede. -/
def insertOrdered {α : Type} (le : α → α → Bool) (x : α) : List α → List α
  | [] => [x]
  | y :: ys => if le x y then x :: y :: ys else y :: insertOrdered le x ys

/-- Stable insertion sort: elements are inserted from last to first, and an
element is placed before exactly those later elements it strictly
precedes. -/
def sortOrdered {α : Type} (le : α → α → Bool) : List α → List α
  | [] => []
  | x :: xs => insertOrdered le x (sortOrdered le xs)

/- ----------------------------------------------------------------------
Conflict resolution (`relationship_detector.py`,
`RelationshipDetector._resolve_relationship_conflicts`).
---------------------------------------------------------------------- -/

/-- Identity key of a relationship: the
(source_table, source_column, target_table, target_column) tuple. -/
def relKey (r : Relationship) : String × String × String × String :=
  (r.source_table, r.source_column, r.target_table, r.target_column)

/-- One iteration of the conflict-resolution loop: insert `rel` into the
map keyed by `relKey`, replacing the stored entry when `rel` has strictly
higher confidence, or equal confidence with `rel` custom and the stored
entry not custom. -/
def resolve_step (m : List ((String × String × String × String) × Relationship))
    (rel : Relationship) : List ((String × String × String × String) × Relationship) :=
  match assocFind m (relKey rel) with
  | none => assocSet m (relKey rel) rel
  | some existing =>
      if existing.confidence < rel.confidence then assocSet m (relKey rel) rel
      else if rel.confidence = existing.confidence
          ∧ rel.is_custom = true ∧ existing.is_custom = false then
        assocSet m (relKey rel) rel
      else m

/-- Embedding of `RelationshipDetector._resolve_relationship_conflicts`:
fold the candidates into the map and return the stored values. -/
def resolve_relationship_conflicts (relationships : List Relationship) :
    List Relationship :=
  (relationships.foldl resolve_step []).map Prod.snd

/-- The survivor of a head-to-head comparison in `resolve_step`, with
`existing` the stored candidate and `rel` the newly seen one. -/
def resolve_combine (existing rel : Relationship) : Relationship :=
  if existing.confidence < rel.confidence then rel
  else if rel.confidence = existing.confidence
      ∧ rel.is_custom = true ∧ existing.is_custom = false then rel
  else existing

/-- Survivor of a whole candidate group, seeded with the first candidate. -/
def resolve_pick (e : Relationship) (g : List Relationship) : Relationship :=
  g.foldl resolve_combine e

/-- Accumulating form of `resolve_pick`, tracking whether a candidate with
the key has been seen yet. -/
def resolve_pickO (o : Option Relationship) (g : List Relationship) : Option Relationship :=
  g.foldl (fun acc r =>
    match acc with
    | none => some r
    | some e => some (resolve_combine e r)) o

theorem assocFind_set_self {α β : Type} [DecidableEq α] (m : List (α × β)) (k : α) (v : β) :
    assocFind (assocSet m k v) k = some v := by
  induction m with
  | nil => simp [assocSet, assocFind]
  | cons hd tl ih =>
      obtain ⟨k', v'⟩ := hd
      by_cases h : k' = k
      · subst h; simp [assocSet, assocFind]
      · simp [assocSet, assocFind, h, ih]

theorem assocFind_set_ne {α β : Type} [DecidableEq α] (m : List (α × β)) (k k'' : α)
    (v : β) (h : k'' ≠ k) : assocFind (assocSet m k v) k'' = assocFind m k'' := by
  have h' : ¬ k = k'' := fun hk => h hk.symm
  induction m with
  | nil => simp [assocSet, assocFind, h']
  | cons hd tl ih =>
      obtain ⟨k', v'⟩ := hd
      by_cases hk : k' = k
      · subst hk
        simp [assocSet, assocFind, h']
      · simp only [assocSet, if_neg hk]
        by_cases hk2 : k' = k''
        · simp [assocFind, hk2]
        · simp [assocFind, hk2, ih]

theorem assocFind_eq_none_iff {α β : Type} [DecidableEq α] (m : List (α × β)) (k : α) :
    assocFind m k = none ↔ k ∉ assocKeys m := by
  induction m with
  | nil => simp [assocFind, assocKeys]
  | cons hd tl ih =>
      obtain ⟨k', v'⟩ := hd
      by_cases h : k' = k
      · subst h; simp [assocFind, assocKeys]
      · have h' : ¬ k = k' := fun hk => h hk.symm
        simp [assocFind, assocKeys, h, h', ih]

theorem assocFind_mem {α β : Type} [DecidableEq α] {m : List (α × β)} {k : α} {v : β}
    (h : assocFind m k = some v) : (k, v) ∈ m := by
  induction m with
  | nil => simp [assocFind] at h
  | cons hd tl ih =>
      obtain ⟨k', v'⟩ := hd
      by_cases hk : k' = k
      · subst hk
        simp [assocFind] at h
        simp [h]
      · simp only [assocFind, if_neg hk] at h
        exact List.mem_cons_of_mem _ (ih h)

theorem assocFind_of_mem_nodup {α β : Type} [DecidableEq α] {m : List (α × β)} {k : α}
    {v : β} (hnd : (assocKeys m).Nodup) (h : (k, v) ∈ m) : assocFind m k = some v := by
  induction m with
  | nil => simp at h
  | cons hd tl ih =>
      obtain ⟨k', v'⟩ := hd
      rw [assocKeys, List.map_cons, List.nodup_cons] at hnd
      rcases List.mem_cons.mp h with heq | hmem
      · obtain ⟨hk, hv⟩ := Prod.ext_iff.mp heq
        subst hk
        subst hv
        simp [assocFind]
      · have hk : ¬ k' = k := by
          intro hkk
          apply hnd.1
          rw [hkk]
          exact List.mem_map.mpr ⟨(k, v), hmem, rfl⟩
        simp only [assocFind, if_neg hk]
        exact ih hnd.2 hmem

theorem assocKeys_set_of_mem {α β : Type} [DecidableEq α] {m : List (α × β)} {k : α}
    (v : β) (h : k ∈ assocKeys m) : assocKeys (assocSet m k v) = assocKeys m := by
  induction m with
  | nil => simp [assocKeys] at h
  | cons hd tl ih =>
      obtain ⟨k', v'⟩ := hd
      by_cases hk : k' = k
      · simp [assocSet, hk, assocKeys]
      · rw [assocKeys, List.map_cons] at h
        rcases List.mem_cons.mp h with heq | hmem
        · exact absurd heq.symm hk
        · have htl := ih hmem
          simp only [assocKeys] at htl
          simp [assocSet, hk, assocKeys, htl]

theorem assocKeys_set_of_not_mem {α β : Type} [DecidableEq α] {m : List (α × β)} {k : α}
    (v : β) (h : k ∉ assocKeys m) : assocKeys (assocSet m k v) = assocKeys m ++ [k] := by
  induction m with
  | nil => simp [assocSet, assocKeys]
  | cons hd tl ih =>
      obtain ⟨k', v'⟩ := hd
      rw [assocKeys, List.map_cons] at h
      have h1 : ¬ k' = k := by
        intro hk
        exact h (by rw [← hk]; exact List.mem_cons_self _ _)
      have h2 : k ∉ assocKeys tl := by
        intro hk
        exact h (List.mem_cons_of_mem _ (by simpa [assocKeys] using hk))
      have htl := ih h2
      simp only [assocKeys] at htl
      simp [assocSet, h1, assocKeys, htl]

theorem assocKeys_set_nodup {α β : Type} [DecidableEq α] {m : List (α × β)} (k : α)
    (v : β) (hnd : (assocKeys m).Nodup) : (assocKeys (assocSet m k v)).Nodup := by
  by_cases h : k ∈ assocKeys m
  · rw [assocKeys_set_of_mem v h]; exact hnd
  · rw [assocKeys_set_of_not_mem v h]
    exact ((List.nodup_cons.mpr ⟨h, hnd⟩).perm (List.perm_append_singleton k _).symm)

theorem assocSet_mem {α β : Type} [DecidableEq α] {m : List (α × β)} {k : α} {v : β}
    {kv : α × β} (h : kv ∈ assocSet m k v) : kv ∈ m ∨ kv = (k, v) := by
  induction m with
  | nil => simp [assocSet] at h; simp [h]
  | cons hd tl ih =>
      obtain ⟨k', v'⟩ := hd
      by_cases hk : k' = k
      · simp only [assocSet, if_pos hk] at h
        rcases List.mem_cons.mp h with heq | hmem
        · right; rw [heq, hk]
        · left; exact List.mem_cons_of_mem _ hmem
      · simp only [assocSet, if_neg hk] at h
        rcases List.mem_cons.mp h with heq | hmem
        · left; simp [heq]
        · rcases ih hmem with h1 | h2
          · left; exact List.mem_cons_of_mem _ h1
          · right; exact h2

/- Lemmas about one step of conflict resolution. -/

theorem resolve_step_find_self (m : List ((String × String × String × String) × Relationship))
    (r : Relationship) :
    assocFind (resolve_step m r) (relKey r) =
      some (match assocFind m (relKey r) with
            | none => r
            | some e => resolve_combine e r) := by
  rw [resolve_step]
  cases h : assocFind m (relKey r) with
  | none => simp [assocFind_set_self]
  | some e =>
      simp only [resolve_combine]
      by_cases h1 : e.confidence < r.confidence
      · simp [h1, assocFind_set_self]
      · by_cases h2 : r.confidence = e.confidence ∧ r.is_custom = true ∧ e.is_custom = false
        · simp [h1, h2, assocFind_set_self]
        · simp [h1, h2, h]

theorem resolve_step_find_ne (m : List ((String × String × String × String) × Relationship))
    (r : Relationship) (k : String × String × String × String) (h : k ≠ relKey r) :
    assocFind (resolve_step m r) k = assocFind m k := by
  rw [resolve_step]
  cases hf : assocFind m (relKey r) with
  | none => exact assocFind_set_ne m (relKey r) k r h
  | some e =>
      by_cases h1 : e.confidence < r.confidence
      · simp only [if_pos h1]
        exact assocFind_set_ne m (relKey r) k r h
      · by_cases h2 : r.confidence = e.confidence ∧ r.is_custom = true ∧ e.is_custom = false
        · simp only [if_neg h1, if_pos h2]
          exact assocFind_set_ne m (relKey r) k r h
        · simp [h1, h2]

theorem resolve_step_keys_nodup
    {m : List ((String × String × String × String) × Relationship)} (r : Relationship)
    (hnd : (assocKeys m).Nodup) : (assocKeys (resolve_step m r)).Nodup := by
  rw [resolve_step]
  cases assocFind m (relKey r) with
  | none => exact assocKeys_set_nodup _ _ hnd
  | some e =>
      by_cases h1 : e.confidence < r.confidence
      · simp only [if_pos h1]; exact assocKeys_set_nodup _ _ hnd
      · by_cases h2 : r.confidence = e.confidence ∧ r.is_custom = true ∧ e.is_custom = false
        · simp only [if_neg h1, if_pos h2]; exact assocKeys_set_nodup _ _ hnd
        · simpa [h1, h2] using hnd

theorem resolve_step_mem
    {m : List ((String × String × String × String) × Relationship)} {r : Relationship}
    {kv : (String × String × String × String) × Relationship}
    (hkv : kv ∈ resolve_step m r) : kv ∈ m ∨ kv = (relKey r, r) := by
  rw [resolve_step] at hkv
  split at hkv
  · exact assocSet_mem hkv
  · split at hkv
    · exact assocSet_mem hkv
    · split at hkv
      · exact assocSet_mem hkv
      · exact Or.inl hkv

theorem resolve_step_entry_key
    {m : List ((String × String × String × String) × Relationship)} {r : Relationship}
    (hm : ∀ kv ∈ m, relKey kv.2 = kv.1) :
    ∀ kv ∈ resolve_step m r, relKey kv.2 = kv.1 := by
  intro kv hkv
  rcases resolve_step_mem hkv with h1 | h2
  · exact hm kv h1
  · rw [h2]

/-- Main characterization of the conflict-resolution fold: the stored value
for a key is the fold of `resolve_combine` over the candidates with that
key, in scan order. -/
theorem resolve_foldl_find (rels : List Relationship) :
    ∀ (m : List ((String × String × String × String) × Relationship))
      (k : String × String × String × String),
      assocFind (List.foldl resolve_step m rels) k =
        resolve_pickO (assocFind m k) (rels.filter (fun r => decide (relKey r = k))) := by
  induction rels with
  | nil => intro m k; rfl
  | cons r rs ih =>
      intro m k
      rw [List.foldl_cons, ih]
      by_cases hk : relKey r = k
      · subst hk
        rw [resolve_step_find_self]
        have hfil : (r :: rs).filter (fun x => decide (relKey x = relKey r)) =
            r :: rs.filter (fun x => decide (relKey x = relKey r)) := by
          simp [List.filter_cons]
        rw [hfil]
        cases hf : assocFind m (relKey r) with
        | none => rfl
        | some e => rfl
      · rw [resolve_step_find_ne m r k (fun h => hk h.symm)]
        have hfil : (r :: rs).filter (fun x => decide (relKey x = k)) =
            rs.filter (fun x => decide (relKey x = k)) := by
          simp [List.filter_cons, hk]
        rw [hfil]

/- Lemmas about the head-to-head survivor `resolve_combine` and the group
survivor `resolve_pick`. -/

theorem resolve_combine_eq_or (e r : Relationship) :
    resolve_combine e r = e ∨ resolve_combine e r = r := by
  rw [resolve_combine]
  by_cases h1 : e.confidence < r.confidence
  · simp [h1]
  · by_cases h2 : r.confidence = e.confidence ∧ r.is_custom = true ∧ e.is_custom = false
    · simp [h1, h2]
    · simp [h1, h2]

theorem resolve_combine_conf_left (e r : Relationship) :
    e.confidence ≤ (resolve_combine e r).confidence := by
  rw [resolve_combine]
  by_cases h1 : e.confidence < r.confidence
  · simp only [if_pos h1]; exact le_of_lt h1
  · by_cases h2 : r.confidence = e.confidence ∧ r.is_custom = true ∧ e.is_custom = false
    · simp only [if_neg h1, if_pos h2]; exact le_of_eq h2.1.symm
    · simp [h1, h2]

theorem resolve_combine_conf_right (e r : Relationship) :
    r.confidence ≤ (resolve_combine e r).confidence := by
  rw [resolve_combine]
  by_cases h1 : e.confidence < r.confidence
  · simp [h1]
  · by_cases h2 : r.confidence = e.confidence ∧ r.is_custom = true ∧ e.is_custom = false
    · simp [h1, h2]
    · simp only [if_neg h1, if_neg h2]; exact le_of_not_lt h1

theorem resolve_pick_cons (e r : Relationship) (rs : List Relationship) :
    resolve_pick e (r :: rs) = resolve_pick (resolve_combine e r) rs := rfl

theorem resolve_pick_mem (g : List Relationship) :
    ∀ e : Relationship, resolve_pick e g ∈ e :: g := by
  induction g with
  | nil => intro e; simp [resolve_pick]
  | cons r rs ih =>
      intro e
      rw [resolve_pick_cons]
      rcases List.mem_cons.mp (ih (resolve_combine e r)) with hm | hm
      · rw [hm]
        rcases resolve_combine_eq_or e r with hc | hc <;> rw [hc]
        · exact List.mem_cons_self _ _
        · exact List.mem_cons_of_mem _ (List.mem_cons_self _ _)
      · exact List.mem_cons_of_mem _ (List.mem_cons_of_mem _ hm)

theorem resolve_pick_conf_ge (g : List Relationship) :
    ∀ e : Relationship, ∀ x ∈ e :: g, x.confidence ≤ (resolve_pick e g).confidence := by
  induction g with
  | nil =>
      intro e x hx
      rcases List.mem_cons.mp hx with h | h
      · rw [h]; exact le_refl _
      · simp at h
  | cons r rs ih =>
      intro e x hx
      rw [resolve_pick_cons]
      have hhead : (resolve_combine e r).confidence ≤
          (resolve_pick (resolve_combine e r) rs).confidence :=
        ih (resolve_combine e r) _ (List.mem_cons_self _ _)
      rcases List.mem_cons.mp hx with h | h
      · rw [h]
        exact le_trans (resolve_combine_conf_left e r) hhead
      · rcases List.mem_cons.mp h with h2 | h2
        · rw [h2]
          exact le_trans (resolve_combine_conf_right e r) hhead
        · exact ih (resolve_combine e r) x (List.mem_cons_of_mem _ h2)

theorem resolve_pick_custom_tie (g : List Relationship) :
    ∀ e : Relationship, ∀ x ∈ e :: g,
      x.confidence = (resolve_pick e g).confidence → x.is_custom = true →
      (resolve_pick e g).is_custom = true := by
  induction g with
  | nil =>
      intro e x hx hconf hcust
      rcases List.mem_cons.mp hx with h | h
      · rw [resolve_pick] at *; simp at *; rw [← h, hcust] at *
      · simp at h
  | cons r rs ih =>
      intro e x hx hconf hcust
      rw [resolve_pick_cons] at hconf ⊢
      have hheadconf : (resolve_combine e r).confidence ≤
          (resolve_pick (resolve_combine e r) rs).confidence :=
        resolve_pick_conf_ge rs (resolve_combine e r) _ (List.mem_cons_self _ _)
      rcases List.mem_cons.mp hx with hxe | hx'
      · subst hxe
        by_cases h1 : x.confidence < r.confidence
        · have hc : resolve_combine x r = r := by simp [resolve_combine, h1]
          rw [hc] at hconf hheadconf ⊢
          have : r.confidence ≤ x.confidence := by rw [hconf]; exact hheadconf
          exact absurd (lt_of_lt_of_le h1 this) (lt_irrefl _)
        · by_cases h2 : r.confidence = x.confidence ∧ r.is_custom = true ∧ x.is_custom = false
          · rw [hcust] at h2
            simp at h2
          · have hc : resolve_combine x r = x := by
              rw [resolve_combine]
              simp [h1, h2]
            rw [hc] at hconf ⊢
            exact ih x x (List.mem_cons_self _ _) hconf hcust
      · rcases List.mem_cons.mp hx' with hxr | hxrs
        · subst hxr
          by_cases h1 : e.confidence < x.confidence
          · have hc : resolve_combine e x = x := by simp [resolve_combine, h1]
            rw [hc] at hconf ⊢
            exact ih x x (List.mem_cons_self _ _) hconf hcust
          · by_cases h2 : x.confidence = e.confidence ∧ x.is_custom = true ∧ e.is_custom = false
            · have hc : resolve_combine e x = x := by
                rw [resolve_combine]
                simp [h1, h2]
              rw [hc] at hconf ⊢
              exact ih x x (List.mem_cons_self _ _) hconf hcust
            · have hc : resolve_combine e x = e := by
                rw [resolve_combine]
                simp [h1, h2]
              rw [hc] at hconf hheadconf ⊢
              have hxe : x.confidence ≤ e.confidence := le_of_not_lt h1
              have hee : e.confidence ≤ (resolve_pick e rs).confidence := hheadconf
              have hconf2 : e.confidence = (resolve_pick e rs).confidence := by
                apply le_antisymm hee
                rw [← hconf]
                exact hxe
              have hcuste : e.is_custom = true := by
                rcases Bool.eq_false_or_eq_true e.is_custom with hb | hb
                · exact hb
                · exfalso
                  have hxeconf : x.confidence = e.confidence := by
                    apply le_antisymm hxe
                    rw [hconf, ← hconf2]
                  exact h2 ⟨hxeconf, hcust, hb⟩
              exact ih e e (List.mem_cons_self _ _) hconf2 hcuste
        · exact ih (resolve_combine e r) x (List.mem_cons_of_mem _ hxrs) hconf hcust

theorem resolve_pick_first_seen (g : List Relationship) :
    ∀ e : Relationship, (resolve_pick e g).is_custom = false →
      (e :: g).find? (fun x => decide (x.confidence = (resolve_pick e g).confidence)) =
        some (resolve_pick e g) := by
  induction g with
  | nil =>
      intro e _
      rw [resolve_pick]
      simp [List.find?_cons]
  | cons r rs ih =>
      intro e hnc
      rw [resolve_pick_cons] at hnc ⊢
      set p := resolve_pick (resolve_combine e r) rs with hp
      set pred := fun x : Relationship => decide (x.confidence = p.confidence) with hpred
      have hmaxe : e.confidence ≤ p.confidence :=
        le_trans (resolve_combine_conf_left e r)
          (resolve_pick_conf_ge rs (resolve_combine e r) _ (List.mem_cons_self _ _))
      have hmaxr : r.confidence ≤ p.confidence :=
        le_trans (resolve_combine_conf_right e r)
          (resolve_pick_conf_ge rs (resolve_combine e r) _ (List.mem_cons_self _ _))
      have hIH := ih (resolve_combine e r) hnc
      rw [← hp] at hIH
      rw [← hpred] at hIH
      by_cases h1 : e.confidence < r.confidence
      · have hc : resolve_combine e r = r := by simp [resolve_combine, h1]
        rw [hc] at hIH
        have hpe : ¬ (pred e = true) := by
          simp only [hpred, decide_eq_true_eq]
          intro h
          exact absurd (lt_of_lt_of_le h1 hmaxr) (by rw [h]; exact lt_irrefl _)
        rw [List.find?_cons_of_neg _ hpe]
        exact hIH
      · by_cases h2 : r.confidence = e.confidence ∧ r.is_custom = true ∧ e.is_custom = false
        · have hc : resolve_combine e r = r := by
            rw [resolve_combine]; simp [h1, h2]
          rw [hc] at hIH hp
          rcases eq_or_lt_of_le hmaxr with heq | hlt
          · rw [hp] at heq
            exact absurd
              (resolve_pick_custom_tie rs r r (List.mem_cons_self _ _) heq h2.2.1)
              (by rw [← hp, hnc]; simp)
          · have hpr : ¬ (pred r = true) := by
              simp only [hpred, decide_eq_true_eq]
              intro h
              exact absurd hlt (by rw [h]; exact lt_irrefl _)
            have hpe : ¬ (pred e = true) := by
              simp only [hpred, decide_eq_true_eq]
              intro h
              rw [← h2.1] at h
              exact absurd hlt (by rw [h]; exact lt_irrefl _)
            rw [List.find?_cons_of_neg _ hpe, List.find?_cons_of_neg _ hpr]
            rw [List.find?_cons_of_neg _ hpr] at hIH
            exact hIH
        · have hc : resolve_combine e r = e := by
            rw [resolve_combine]; simp [h1, h2]
          rw [hc] at hIH hp
          by_cases hpe : e.confidence = p.confidence
          · have hpet : pred e = true := by
              simp [hpred, hpe]
            rw [List.find?_cons_of_pos _ hpet] at hIH
            have hep : e = p := Option.some.inj hIH
            rw [List.find?_cons_of_pos _ hpet, hep]
          · have hpe' : ¬ (pred e = true) := by
              simp [hpred, hpe]
            rw [List.find?_cons_of_neg _ hpe'] at hIH
            have hre : r.confidence ≤ e.confidence := le_of_not_lt h1
            have hpr : ¬ (pred r = true) := by
              simp only [hpred, decide_eq_true_eq]
              intro h
              have he1 : e.confidence = p.confidence := by
                apply le_antisymm hmaxe
                rw [← h]
                exact hre
              exact hpe he1
            rw [List.find?_cons_of_neg _ hpe', List.find?_cons_of_neg _ hpr]
            exact hIH

theorem resolve_pickO_some (l : List Relationship) :
    ∀ e : Relationship, resolve_pickO (some e) l = some (resolve_pick e l) := by
  induction l with
  | nil => intro e; rfl
  | cons x xs ih => intro e; exact ih (resolve_combine e x)

theorem resolve_foldl_keys_nodup (rels : List Relationship) :
    ∀ m : List ((String × String × String × String) × Relationship),
      (assocKeys m).Nodup → (assocKeys (List.foldl resolve_step m rels)).Nodup := by
  induction rels with
  | nil => intro m h; exact h
  | cons r rs ih =>
      intro m h
      rw [List.foldl_cons]
      exact ih _ (resolve_step_keys_nodup r h)

theorem resolve_foldl_entry_key (rels : List Relationship) :
    ∀ m : List ((String × String × String × String) × Relationship),
      (∀ kv ∈ m, relKey kv.2 = kv.1) →
      ∀ kv ∈ List.foldl resolve_step m rels, relKey kv.2 = kv.1 := by
  induction rels with
  | nil => intro m h; exact h
  | cons r rs ih =>
      intro m h
      rw [List.foldl_cons]
      exact ih _ (resolve_step_entry_key h)

/-- Every survivor of conflict resolution is the `resolve_pick` survivor of
its (nonempty) candidate group. -/
theorem resolve_surviving_pick (rels : List Relationship) :
    ∀ r' ∈ resolve_relationship_conflicts rels,
      ∃ a as, rels.filter (fun x => decide (relKey x = relKey r')) = a :: as
        ∧ r' = resolve_pick a as := by
  have hnd : (assocKeys (List.foldl resolve_step [] rels)).Nodup :=
    resolve_foldl_keys_nodup rels [] (by simp [assocKeys])
  have hek : ∀ kv ∈ List.foldl resolve_step [] rels, relKey kv.2 = kv.1 :=
    resolve_foldl_entry_key rels [] (by simp)
  intro r' hr'
  obtain ⟨kv, hkv, hsnd⟩ := List.mem_map.mp hr'
  have hkey : relKey r' = kv.1 := by rw [← hsnd]; exact hek kv hkv
  have hkveq : (kv.1, r') = kv := by rw [← hsnd]
  have hfindA : assocFind (List.foldl resolve_step [] rels) kv.1 = some r' :=
    assocFind_of_mem_nodup hnd (hkveq ▸ hkv)
  rw [← hkey] at hfindA
  rw [resolve_foldl_find rels [] (relKey r')] at hfindA
  rcases hg : rels.filter (fun x => decide (relKey x = relKey r')) with _ | ⟨a, as⟩
  · rw [hg] at hfindA; simp [resolve_pickO, assocFind] at hfindA
  · rw [hg] at hfindA
    refine ⟨a, as, rfl, ?_⟩
    have : resolve_pickO (assocFind [] (relKey r')) (a :: as) =
        some (resolve_pick a as) := by
      show resolve_pickO (some a) as = some (resolve_pick a as)
      exact resolve_pickO_some as a
    rw [this] at hfindA
    exact (Option.some.inj hfindA).symm

/-- Every survivor of conflict resolution is one of the candidates. -/
theorem resolve_relationship_conflicts_subset (rels : List Relationship) :
    ∀ r' ∈ resolve_relationship_conflicts rels, r' ∈ rels := by
  intro r' hr'
  obtain ⟨a, as, hg, hpicked⟩ := resolve_surviving_pick rels r' hr'
  have : r' ∈ a :: as := hpicked ▸ resolve_pick_mem as a
  rw [← hg] at this
  exact (List.mem_filter.mp this).1

/-- Claim C4: after conflict resolution, exactly one candidate survives per
occurring identity key (source_table, source_column, target_table,
target_column); the survivor is a candidate of its group with the highest
confidence in the group; on an exact confidence tie a candidate with
`is_custom` set forces the survivor to be custom; and when the survivor is
not custom it is the first-seen candidate of its group with the surviving
confidence, in generator-invocation order. -/
theorem resolve_relationship_conflicts_spec (rels : List Relationship) :
    ((resolve_relationship_conflicts rels).map relKey).Nodup
    ∧ (∀ r ∈ rels, ∃ r' ∈ resolve_relationship_conflicts rels, relKey r' = relKey r)
    ∧ (∀ r' ∈ resolve_relationship_conflicts rels,
        r' ∈ rels
        ∧ (∀ r ∈ rels, relKey r = relKey r' → r.confidence ≤ r'.confidence)
        ∧ (∀ r ∈ rels, relKey r = relKey r' → r.confidence = r'.confidence →
            r.is_custom = true → r'.is_custom = true)
        ∧ (r'.is_custom = false →
            (rels.filter (fun x => decide (relKey x = relKey r'))).find?
              (fun x => decide (x.confidence = r'.confidence)) = some r')) := by
  have hnd : (assocKeys (List.foldl resolve_step [] rels)).Nodup :=
    resolve_foldl_keys_nodup rels [] (by simp [assocKeys])
  have hek : ∀ kv ∈ List.foldl resolve_step [] rels, relKey kv.2 = kv.1 :=
    resolve_foldl_entry_key rels [] (by simp)
  have hmapkeys : (resolve_relationship_conflicts rels).map relKey =
      assocKeys (List.foldl resolve_step [] rels) := by
    rw [resolve_relationship_conflicts, List.map_map]
    exact List.map_congr_left hek
  refine ⟨hmapkeys ▸ hnd, ?_, ?_⟩
  · intro r hr
    have hfind := resolve_foldl_find rels [] (relKey r)
    have hrfil : r ∈ rels.filter (fun x => decide (relKey x = relKey r)) :=
      List.mem_filter.mpr ⟨hr, by simp⟩
    rcases hg : rels.filter (fun x => decide (relKey x = relKey r)) with _ | ⟨a, as⟩
    · rw [hg] at hrfil; simp at hrfil
    · rw [hg] at hfind
      have hpicked : assocFind (List.foldl resolve_step [] rels) (relKey r) =
          some (resolve_pick a as) := by
        rw [hfind]
        show resolve_pickO (some a) as = some (resolve_pick a as)
        exact resolve_pickO_some as a
      have hmem := assocFind_mem hpicked
      refine ⟨resolve_pick a as, List.mem_map.mpr ⟨_, hmem, rfl⟩, ?_⟩
      exact hek _ hmem
  · intro r' hr'
    obtain ⟨a, as, hg, hpicked⟩ := resolve_surviving_pick rels r' hr'
    have hsub : ∀ x ∈ a :: as, x ∈ rels := by
      intro x hx
      rw [← hg] at hx
      exact (List.mem_filter.mp hx).1
    have hmemg : ∀ x ∈ rels, relKey x = relKey r' → x ∈ a :: as := by
      intro x hx hkx
      rw [← hg]
      exact List.mem_filter.mpr ⟨hx, by simp [hkx]⟩
    refine ⟨?_, ?_, ?_, ?_⟩
    · rw [hpicked]
      exact hsub _ (resolve_pick_mem as a)
    · intro r hr hkr
      rw [hpicked]
      exact resolve_pick_conf_ge as a r (hmemg r hr hkr)
    · intro r hr hkr hconf hcust
      rw [hpicked]
      rw [hpicked] at hconf
      exact resolve_pick_custom_tie as a r (hmemg r hr hkr) hconf hcust
    · intro hnc
      rw [hg, hpicked]
      rw [hpicked] at hnc
      exact resolve_pick_first_seen as a hnc

/- ----------------------------------------------------------------------
Filtering (`relationship_detector.py`,
`RelationshipDetector._filter_relationships`).
---------------------------------------------------------------------- -/

/-- First occurrence of each element, in order (the key order of a Python
dict built by appending). -/
def dedupKeepFirstGo {α : Type} [DecidableEq α] (seen : List α) : List α → List α
  | [] => []
  | x :: xs =>
      if x ∈ seen then dedupKeepFirstGo seen xs
      else x :: dedupKeepFirstGo (x :: seen) xs

/-- First occurrence of each element of a list, in order. -/
def dedupKeepFirst {α : Type} [DecidableEq α] (l : List α) : List α :=
  dedupKeepFirstGo [] l

/-- Grouping of relationships by source table (`table_relationships` dict in
both `_filter_relationships` implementations): keys in first-occurrence
order, each group in scan order. -/
def groupBySource (rels : List Relationship) : List (String × List Relationship) :=
  (dedupKeepFirst (rels.map (fun r => r.source_table))).map
    (fun k => (k, rels.filter (fun r => r.source_table == k)))

/-- Preferred detection methods hard-coded in
`RelationshipDetector._filter_relationships`. -/
def preferred_detection_methods : List String := ["enhanced_pk_fk", "foreign_key"]

/-- Stable descending sort by confidence
(`rels.sort(key=lambda x: x.confidence, reverse=True)`).  Python float
literals are embedded as exact rationals written with `mkRat`. -/
def detectorSortRels (rels : List Relationship) : List Relationship :=
  sortOrdered (fun a b => decide (b.confidence ≤ a.confidence)) rels

/-- The first selection loop of `RelationshipDetector._filter_relationships`
over the top `min(5, len(rels))` sorted relationships: drop confidence below
`0.2`, keep preferred-method relationships and those with confidence at
least `0.5`. -/
def meaningfulRels (sorted : List Relationship) : List Relationship :=
  (sorted.take (min 5 sorted.length)).filter
    (fun r => !(decide (r.confidence < mkRat 2 10))
      && (preferred_detection_methods.contains r.detection_method
          || decide (mkRat 5 10 ≤ r.confidence)))

/-- The backfill loop of `RelationshipDetector._filter_relationships`: walk
the sorted list appending not-yet-kept relationships with confidence at
least `0.3`, stopping as soon as two relationships are kept. -/
def backfillGo (meaningful : List Relationship) : List Relationship → List Relationship
  | [] => meaningful
  | r :: rs =>
      if !(meaningful.contains r) && decide (mkRat 3 10 ≤ r.confidence) then
        let m' := meaningful ++ [r]
        if 2 ≤ m'.length then m' else backfillGo m' rs
      else backfillGo meaningful rs

/-- Per-source-table stage of `RelationshipDetector._filter_relationships`:
sort descending by confidence, select, then backfill to two if needed. -/
def filterPerTable (rels : List Relationship) : List Relationship :=
  let sorted := detectorSortRels rels
  let meaningful := meaningfulRels sorted
  if meaningful.length < 2 then backfillGo meaningful sorted else meaningful

/-- Ordered (source_table, target_table) pair of a relationship, the key of
the final deduplication stage of `RelationshipDetector._filter_relationships`
(`pair = (rel.source_table, rel.target_table)`). -/
def relPair (r : Relationship) : String × String := (r.source_table, r.target_table)

/-- The final deduplication loop: keep the first-seen relationship for each
ordered (source_table, target_table) pair. -/
def dedupByPairGo (seen : List (String × String)) : List Relationship → List Relationship
  | [] => []
  | r :: rs =>
      if relPair r ∈ seen then dedupByPairGo seen rs
      else r :: dedupByPairGo (relPair r :: seen) rs

/-- The per-table stage of `RelationshipDetector._filter_relationships`
applied to every source-table group, results concatenated in group order
(the `filtered` list right before the deduplication loop). -/
def filteredStage (relationships : List Relationship) : List Relationship :=
  ((groupBySource relationships).map (fun kg => filterPerTable kg.2)).flatten

/-- Embedding of `RelationshipDetector._filter_relationships`. -/
def filter_relationships (relationships : List Relationship) : List Relationship :=
  if relationships = [] then relationships
  else dedupByPairGo [] (filteredStage relationships)

/- ----------------------------------------------------------------------
Filtering (`enhanced_relationship_detector.py`,
`EnhancedRelationshipDetector._filter_relationships`).  The three filtering
parameters come from the pattern-configuration document
(`max_relationships_per_table` defaulting to 5, `min_confidence_threshold`
defaulting to 0.3, `preferred_detection_methods` defaulting to `[]`) and are
passed explicitly here.
---------------------------------------------------------------------- -/

/-- Comparison for the stable descending sort of
`EnhancedRelationshipDetector._filter_relationships`
(`key=lambda r: (r.detection_method in preferred_methods, r.confidence)`,
`reverse=True`): `a` may precede `b` when the key of `b` is
lexicographically at most the key of `a`. -/
def enhancedSortLe (preferred : List String) (a b : Relationship) : Bool :=
  let pa := preferred.contains a.detection_method
  let pb := preferred.contains b.detection_method
  (!pb && pa) || (pa == pb && decide (b.confidence ≤ a.confidence))

/-- The selection loop of `EnhancedRelationshipDetector._filter_relationships`
over a sorted per-table group: stop at `max_rels_per_table` kept
relationships, keep those with confidence at least `min_confidence`. -/
def enhancedTakeGo (maxRels : Nat) (minConf : ℚ) (acc : List Relationship) :
    List Relationship → List Relationship
  | [] => acc
  | r :: rs =>
      if maxRels ≤ acc.length then acc
      else if minConf ≤ r.confidence then enhancedTakeGo maxRels minConf (acc ++ [r]) rs
      else enhancedTakeGo maxRels minConf acc rs

/-- Embedding of `EnhancedRelationshipDetector._filter_relationships`. -/
def enhanced_filter_relationships (maxRels : Nat) (minConf : ℚ)
    (preferred : List String) (relationships : List Relationship) : List Relationship :=
  if relationships = [] then relationships
  else ((groupBySource relationships).map
      (fun kg => enhancedTakeGo maxRels minConf []
        (sortOrdered (enhancedSortLe preferred) kg.2))).flatten

/- Lemmas about sorting, grouping and the two filter implementations. -/

theorem insertOrdered_perm {α : Type} (le : α → α → Bool) (x : α) (l : List α) :
    (insertOrdered le x l).Perm (x :: l) := by
  induction l with
  | nil => simp [insertOrdered]
  | cons y ys ih =>
      rw [insertOrdered]
      by_cases h : le x y
      · simp [h]
      · rw [if_neg h]
        exact (List.Perm.cons y ih).trans (List.Perm.swap x y ys)

theorem sortOrdered_perm {α : Type} (le : α → α → Bool) (l : List α) :
    (sortOrdered le l).Perm l := by
  induction l with
  | nil => simp [sortOrdered]
  | cons x xs ih =>
      rw [sortOrdered]
      exact (insertOrdered_perm le x (sortOrdered le xs)).trans (List.Perm.cons x ih)

theorem mem_sortOrdered {α : Type} {le : α → α → Bool} {l : List α} {x : α} :
    x ∈ sortOrdered le l ↔ x ∈ l :=
  (sortOrdered_perm le l).mem_iff

theorem dedupKeepFirstGo_mem {α : Type} [DecidableEq α] (l : List α) :
    ∀ (seen : List α) (x : α), x ∈ dedupKeepFirstGo seen l ↔ x ∈ l ∧ x ∉ seen := by
  induction l with
  | nil => intro seen x; simp [dedupKeepFirstGo]
  | cons y ys ih =>
      intro seen x
      rw [dedupKeepFirstGo]
      by_cases h : y ∈ seen
      · rw [if_pos h, ih]
        constructor
        · rintro ⟨hx, hs⟩
          exact ⟨List.mem_cons_of_mem _ hx, hs⟩
        · rintro ⟨hx, hs⟩
          rcases List.mem_cons.mp hx with rfl | hx'
          · exact absurd h hs
          · exact ⟨hx', hs⟩
      · rw [if_neg h]
        constructor
        · intro hx
          rcases List.mem_cons.mp hx with rfl | hx'
          · exact ⟨List.mem_cons_self _ _, h⟩
          · obtain ⟨h1, h2⟩ := (ih (y :: seen) x).mp hx'
            refine ⟨List.mem_cons_of_mem _ h1, ?_⟩
            intro hs
            exact h2 (List.mem_cons_of_mem _ hs)
        · rintro ⟨hx, hs⟩
          rcases List.mem_cons.mp hx with rfl | hx'
          · exact List.mem_cons_self _ _
          · by_cases hxy : x = y
            · subst hxy; exact List.mem_cons_self _ _
            · exact List.mem_cons_of_mem _ ((ih (y :: seen) x).mpr
                ⟨hx', by simp [hxy, hs]⟩)

theorem dedupKeepFirstGo_nodup {α : Type} [DecidableEq α] (l : List α) :
    ∀ seen : List α, (dedupKeepFirstGo seen l).Nodup := by
  induction l with
  | nil => intro seen; simp [dedupKeepFirstGo]
  | cons y ys ih =>
      intro seen
      rw [dedupKeepFirstGo]
      by_cases h : y ∈ seen
      · rw [if_pos h]; exact ih seen
      · rw [if_neg h]
        refine List.nodup_cons.mpr ⟨?_, ih (y :: seen)⟩
        intro hy
        exact ((dedupKeepFirstGo_mem ys (y :: seen) y).mp hy).2 (List.mem_cons_self _ _)

theorem groupBySource_keys_nodup (rels : List Relationship) :
    (assocKeys (groupBySource rels)).Nodup := by
  rw [groupBySource, assocKeys, List.map_map]
  have : (Prod.fst ∘ fun k => (k, rels.filter (fun r => r.source_table == k))) = id := by
    funext k; rfl
  rw [this, List.map_id]
  exact dedupKeepFirstGo_nodup _ []

theorem groupBySource_group (rels : List Relationship) :
    ∀ kg ∈ groupBySource rels, kg.2 = rels.filter (fun r => r.source_table == kg.1) := by
  intro kg hkg
  rw [groupBySource] at hkg
  obtain ⟨k, _, hmk⟩ := List.mem_map.mp hkg
  rw [← hmk]

theorem groupBySource_src (rels : List Relationship) :
    ∀ kg ∈ groupBySource rels, ∀ x ∈ kg.2, x.source_table = kg.1 := by
  intro kg hkg x hx
  rw [groupBySource_group rels kg hkg] at hx
  have := (List.mem_filter.mp hx).2
  simpa using this

theorem backfillGo_length (l : List Relationship) :
    ∀ m : List Relationship, m.length < 2 → (backfillGo m l).length ≤ 2 := by
  induction l with
  | nil => intro m hm; rw [backfillGo]; exact le_of_lt hm
  | cons r rs ih =>
      intro m hm
      rw [backfillGo]
      by_cases h : !(m.contains r) && decide (mkRat 3 10 ≤ r.confidence)
      · rw [if_pos h]
        by_cases h2 : 2 ≤ (m ++ [r]).length
        · rw [if_pos h2]
          simp only [List.length_append, List.length_cons, List.length_nil]
          omega
        · rw [if_neg h2]
          exact ih _ (by omega)
      · rw [if_neg h]
        exact ih m hm

theorem backfillGo_subset (l : List Relationship) :
    ∀ (m : List Relationship), ∀ x ∈ backfillGo m l, x ∈ m ∨ x ∈ l := by
  induction l with
  | nil => intro m x hx; rw [backfillGo] at hx; exact Or.inl hx
  | cons r rs ih =>
      intro m x hx
      rw [backfillGo] at hx
      by_cases h : !(m.contains r) && decide (mkRat 3 10 ≤ r.confidence)
      · rw [if_pos h] at hx
        by_cases h2 : 2 ≤ (m ++ [r]).length
        · rw [if_pos h2] at hx
          rcases List.mem_append.mp hx with h3 | h3
          · exact Or.inl h3
          · simp at h3
            exact Or.inr (h3 ▸ List.mem_cons_self _ _)
        · rw [if_neg h2] at hx
          rcases ih _ x hx with h3 | h3
          · rcases List.mem_append.mp h3 with h4 | h4
            · exact Or.inl h4
            · simp at h4
              exact Or.inr (h4 ▸ List.mem_cons_self _ _)
          · exact Or.inr (List.mem_cons_of_mem _ h3)
      · rw [if_neg h] at hx
        rcases ih m x hx with h3 | h3
        · exact Or.inl h3
        · exact Or.inr (List.mem_cons_of_mem _ h3)

theorem meaningfulRels_length (sorted : List Relationship) :
    (meaningfulRels sorted).length ≤ 5 := by
  rw [meaningfulRels]
  calc ((sorted.take (min 5 sorted.length)).filter _).length
      ≤ (sorted.take (min 5 sorted.length)).length := List.length_filter_le _ _
    _ ≤ 5 := by rw [List.length_take]; omega

theorem meaningfulRels_subset (sorted : List Relationship) :
    ∀ x ∈ meaningfulRels sorted, x ∈ sorted := by
  intro x hx
  rw [meaningfulRels] at hx
  exact List.mem_of_mem_take (List.mem_filter.mp hx).1

theorem filterPerTable_length (g : List Relationship) :
    (filterPerTable g).length ≤ 5 := by
  rw [filterPerTable]
  by_cases h : (meaningfulRels (detectorSortRels g)).length < 2
  · rw [if_pos h]
    exact le_trans (backfillGo_length _ _ h) (by omega)
  · rw [if_neg h]
    exact meaningfulRels_length _

theorem filterPerTable_subset (g : List Relationship) :
    ∀ x ∈ filterPerTable g, x ∈ g := by
  intro x hx
  rw [filterPerTable] at hx
  by_cases h : (meaningfulRels (detectorSortRels g)).length < 2
  · rw [if_pos h] at hx
    rcases backfillGo_subset _ _ x hx with h1 | h1
    · exact mem_sortOrdered.mp (meaningfulRels_subset _ x h1)
    · exact mem_sortOrdered.mp h1
  · rw [if_neg h] at hx
    exact mem_sortOrdered.mp (meaningfulRels_subset _ x hx)

theorem enhancedTakeGo_length (maxRels : Nat) (minConf : ℚ) (l : List Relationship) :
    ∀ acc : List Relationship, acc.length ≤ maxRels →
      (enhancedTakeGo maxRels minConf acc l).length ≤ maxRels := by
  induction l with
  | nil => intro acc h; rw [enhancedTakeGo]; exact h
  | cons r rs ih =>
      intro acc h
      rw [enhancedTakeGo]
      by_cases h1 : maxRels ≤ acc.length
      · rw [if_pos h1]; exact h
      · rw [if_neg h1]
        by_cases h2 : minConf ≤ r.confidence
        · rw [if_pos h2]
          refine ih _ ?_
          simp only [List.length_append, List.length_cons, List.length_nil]
          omega
        · rw [if_neg h2]
          exact ih _ h

theorem enhancedTakeGo_subset (maxRels : Nat) (minConf : ℚ) (l : List Relationship) :
    ∀ acc : List Relationship, ∀ x ∈ enhancedTakeGo maxRels minConf acc l,
      x ∈ acc ∨ x ∈ l := by
  induction l with
  | nil => intro acc x hx; rw [enhancedTakeGo] at hx; exact Or.inl hx
  | cons r rs ih =>
      intro acc x hx
      rw [enhancedTakeGo] at hx
      by_cases h1 : maxRels ≤ acc.length
      · rw [if_pos h1] at hx; exact Or.inl hx
      · rw [if_neg h1] at hx
        by_cases h2 : minConf ≤ r.confidence
        · rw [if_pos h2] at hx
          rcases ih _ x hx with h3 | h3
          · rcases List.mem_append.mp h3 with h4 | h4
            · exact Or.inl h4
            · simp at h4
              exact Or.inr (h4 ▸ List.mem_cons_self _ _)
          · exact Or.inr (List.mem_cons_of_mem _ h3)
        · rw [if_neg h2] at hx
          rcases ih acc x hx with h3 | h3
          · exact Or.inl h3
          · exact Or.inr (List.mem_cons_of_mem _ h3)

theorem dedupByPairGo_sublist (l : List Relationship) :
    ∀ seen : List (String × String), (dedupByPairGo seen l).Sublist l := by
  induction l with
  | nil => intro seen; rw [dedupByPairGo]
  | cons r rs ih =>
      intro seen
      rw [dedupByPairGo]
      by_cases h : relPair r ∈ seen
      · rw [if_pos h]
        exact (ih seen).cons r
      · rw [if_neg h]
        exact (ih _).cons₂ r

/-- Bound on the number of relationships with a given source table in the
concatenation of per-group outputs, provided each group's output stays
inside the group, groups carry their key as source table, keys are distinct,
and each group's output has length at most `B`. -/
theorem count_flatten_groups (t : String) (B : Nat)
    (F : List Relationship → List Relationship) (gs : List (String × List Relationship))
    (hkeys : (assocKeys gs).Nodup)
    (hsrc : ∀ kg ∈ gs, ∀ x ∈ kg.2, x.source_table = kg.1)
    (hFsub : ∀ kg ∈ gs, ∀ x ∈ F kg.2, x ∈ kg.2)
    (hFlen : ∀ kg ∈ gs, (F kg.2).length ≤ B) :
    ((gs.map (fun kg => F kg.2)).flatten).countP
      (fun r => decide (r.source_table = t)) ≤ B := by
  induction gs with
  | nil => simp
  | cons kg gs' ih =>
      rw [List.map_cons, List.flatten_cons, List.countP_append]
      rw [assocKeys, List.map_cons, List.nodup_cons] at hkeys
      have hrest : ∀ kg' ∈ gs', ∀ x ∈ F kg'.2, x.source_table = kg'.1 := by
        intro kg' h x hx
        exact hsrc kg' (List.mem_cons_of_mem _ h) x
          (hFsub kg' (List.mem_cons_of_mem _ h) x hx)
      by_cases hk : kg.1 = t
      · have hzero : ((gs'.map (fun kg => F kg.2)).flatten).countP
            (fun r => decide (r.source_table = t)) = 0 := by
          rw [List.countP_eq_zero]
          intro a ha
          obtain ⟨l', hl', hal'⟩ := List.mem_flatten.mp ha
          obtain ⟨kg', hkg', hfk⟩ := List.mem_map.mp hl'
          have hne : kg'.1 ≠ t := by
            intro he
            exact hkeys.1 (hk ▸ he ▸ List.mem_map.mpr ⟨kg', hkg', rfl⟩)
          rw [← hfk] at hal'
          have := hrest kg' hkg' a hal'
          simp [this, hne]
        rw [hzero]
        have hle : (F kg.2).countP (fun r => decide (r.source_table = t))
            ≤ (F kg.2).length := List.countP_le_length _
        have := hFlen kg (List.mem_cons_self _ _)
        omega
      · have hzero : (F kg.2).countP (fun r => decide (r.source_table = t)) = 0 := by
          rw [List.countP_eq_zero]
          intro a ha
          have := hsrc kg (List.mem_cons_self _ _) a (hFsub kg (List.mem_cons_self _ _) a ha)
          simp [this, hk]
        rw [hzero]
        have := ih hkeys.2 (fun kg' h => hsrc kg' (List.mem_cons_of_mem _ h))
          (fun kg' h => hFsub kg' (List.mem_cons_of_mem _ h))
          (fun kg' h => hFlen kg' (List.mem_cons_of_mem _ h))
        omega

theorem dedupByPairGo_not_seen (l : List Relationship) :
    ∀ (seen : List (String × String)) (x : Relationship),
      x ∈ dedupByPairGo seen l → relPair x ∉ seen := by
  induction l with
  | nil => intro seen x hx; rw [dedupByPairGo] at hx; simp at hx
  | cons r rs ih =>
      intro seen x hx
      rw [dedupByPairGo] at hx
      by_cases h : relPair r ∈ seen
      · rw [if_pos h] at hx
        exact ih seen x hx
      · rw [if_neg h] at hx
        rcases List.mem_cons.mp hx with rfl | hx'
        · exact h
        · intro hs
          exact ih _ x hx' (List.mem_cons_of_mem _ hs)

theorem dedupByPairGo_pairwise (l : List Relationship) :
    ∀ seen : List (String × String),
      List.Pairwise (fun a b => relPair a ≠ relPair b) (dedupByPairGo seen l) := by
  induction l with
  | nil => intro seen; rw [dedupByPairGo]; exact List.Pairwise.nil
  | cons r rs ih =>
      intro seen
      rw [dedupByPairGo]
      by_cases h : relPair r ∈ seen
      · rw [if_pos h]; exact ih seen
      · rw [if_neg h]
        refine List.pairwise_cons.mpr ⟨?_, ih _⟩
        intro b hb heq
        exact dedupByPairGo_not_seen rs _ b hb (heq ▸ List.mem_cons_self _ _)

theorem dedupByPairGo_first_seen (l : List Relationship) :
    ∀ (seen : List (String × String)) (x : Relationship), x ∈ dedupByPairGo seen l →
      l.find? (fun y => decide (relPair y = relPair x)) = some x := by
  induction l with
  | nil => intro seen x hx; rw [dedupByPairGo] at hx; simp at hx
  | cons r rs ih =>
      intro seen x hx
      have hxseen := dedupByPairGo_not_seen (r :: rs) seen x hx
      rw [dedupByPairGo] at hx
      by_cases h : relPair r ∈ seen
      · rw [if_pos h] at hx
        have hner : ¬ ((fun y : Relationship =>
            decide (relPair y = relPair x)) r = true) := by
          simp only [decide_eq_true_eq]
          intro he
          exact hxseen (he ▸ h)
        have hstep : (r :: rs).find? (fun y => decide (relPair y = relPair x)) =
            rs.find? (fun y => decide (relPair y = relPair x)) :=
          List.find?_cons_of_neg rs hner
        rw [hstep]
        exact ih seen x hx
      · rw [if_neg h] at hx
        rcases List.mem_cons.mp hx with rfl | hx'
        · exact List.find?_cons_of_pos _ (by simp)
        · have hxr : relPair x ∉ (relPair r :: seen) :=
            dedupByPairGo_not_seen rs _ x hx'
          have hner : ¬ ((fun y : Relationship =>
              decide (relPair y = relPair x)) r = true) := by
            simp only [decide_eq_true_eq]
            intro he
            exact hxr (he ▸ List.mem_cons_self _ _)
          have hstep : (r :: rs).find? (fun y => decide (relPair y = relPair x)) =
              rs.find? (fun y => decide (relPair y = relPair x)) :=
            List.find?_cons_of_neg rs hner
          rw [hstep]
          exact ih _ x hx'

/-- Claim C2 (amended): the final deduplication stage of
`RelationshipDetector._filter_relationships` keys on the ordered
(source_table, target_table) pair, not the unordered pair: after filtering,
no two surviving relationships share the same ordered pair, and the survivor
for each ordered pair is the first-seen relationship with that pair in the
per-table stage output — but two relationships connecting the same two
tables in opposite directions may both survive. -/
theorem filter_relationships_ordered_pair_dedup (rels : List Relationship) :
    List.Pairwise (fun a b => relPair a ≠ relPair b) (filter_relationships rels)
    ∧ ∀ r ∈ filter_relationships rels,
        (filteredStage rels).find? (fun y => decide (relPair y = relPair r)) = some r := by
  rw [filter_relationships]
  by_cases h : rels = []
  · rw [if_pos h]
    subst h
    exact ⟨List.Pairwise.nil, by intro r hr; simp at hr⟩
  · rw [if_neg h]
    exact ⟨dedupByPairGo_pairwise _ [], fun r hr => dedupByPairGo_first_seen _ [] r hr⟩

/-- Counterexample for C2 as stated: on this input the filtering stage keeps
two distinct relationships that connect the same unordered pair of tables
(in opposite directions), so deduplication is not by the unordered
(source_table, target_table) pair. -/
theorem filter_relationships_unordered_pair_counterexample :
    filter_relationships [sampleRel, sampleRelReversed] = [sampleRel, sampleRelReversed]
    ∧ sampleRel ≠ sampleRelReversed
    ∧ sampleRel.source_table = sampleRelReversed.target_table
    ∧ sampleRel.target_table = sampleRelReversed.source_table := by
  refine ⟨by decide, by decide, by rfl, by rfl⟩

/-- Witness for C2 (amended): on a concrete input, the survivors have
pairwise distinct ordered pairs and each survivor is the first of the
per-table stage output with its ordered pair. -/
theorem filter_relationships_ordered_pair_dedup_witness :
    List.Pairwise (fun a b => relPair a ≠ relPair b)
      (filter_relationships [sampleRel, sampleRelReversed])
    ∧ (filteredStage [sampleRel, sampleRelReversed]).find?
        (fun y => decide (relPair y = relPair sampleRel)) = some sampleRel := by
  obtain ⟨h1, h2⟩ := filter_relationships_ordered_pair_dedup [sampleRel, sampleRelReversed]
  refine ⟨h1, h2 sampleRel ?_⟩
  have : filter_relationships [sampleRel, sampleRelReversed] =
      [sampleRel, sampleRelReversed] := by decide
  rw [this]
  exact List.mem_cons_self _ _

/-- Claim C6: after filtering, each table is the source of at most the
configured maximum number of surviving relationships: at most 5 (the
hard-coded cap, which also bounds the backfill-to-2 step) for
`RelationshipDetector._filter_relationships`, and at most the configured
`max_relationships_per_table` (default 5) for
`EnhancedRelationshipDetector._filter_relationships`. -/
theorem filter_relationships_fanout_cap (rels : List Relationship) (t : String)
    (maxRels : Nat) (minConf : ℚ) (preferred : List String) :
    (filter_relationships rels).countP (fun r => decide (r.source_table = t)) ≤ 5
    ∧ (enhanced_filter_relationships maxRels minConf preferred rels).countP
        (fun r => decide (r.source_table = t)) ≤ maxRels := by
  constructor
  · rw [filter_relationships]
    by_cases h : rels = []
    · simp [h]
    · rw [if_neg h, filteredStage]
      calc (dedupByPairGo [] _).countP (fun r => decide (r.source_table = t))
          ≤ (((groupBySource rels).map (fun kg => filterPerTable kg.2)).flatten).countP
              (fun r => decide (r.source_table = t)) :=
            (dedupByPairGo_sublist _ []).countP_le _
        _ ≤ 5 := count_flatten_groups t 5 filterPerTable (groupBySource rels)
              (groupBySource_keys_nodup rels) (groupBySource_src rels)
              (fun kg _ => filterPerTable_subset kg.2)
              (fun kg _ => filterPerTable_length kg.2)
  · rw [enhanced_filter_relationships]
    by_cases h : rels = []
    · simp [h]
    · rw [if_neg h]
      exact count_flatten_groups t maxRels
        (fun g => enhancedTakeGo maxRels minConf [] (sortOrdered (enhancedSortLe preferred) g))
        (groupBySource rels) (groupBySource_keys_nodup rels) (groupBySource_src rels)
        (fun kg _ x hx => by
          rcases enhancedTakeGo_subset maxRels minConf _ [] x hx with h1 | h1
          · simp at h1
          · exact mem_sortOrdered.mp h1)
        (fun kg _ => enhancedTakeGo_length maxRels minConf _ [] (by simp))

/-- Column lookup by name used by
`DataRelationshipTester._check_type_compatibility`. -/
def find_column (table : TableSchema) (column_name : String) : Option ColumnInfo :=
  table.columns.find? (fun c => c.name == column_name)

/-- The `compatible_types` table of
`DataRelationshipTester._check_type_compatibility`. -/
def compatible_types : List (String × List String) :=
  [("int64", ["integer", "int32", "int64"]),
   ("integer", ["int64", "int32", "integer"]),
   ("string", ["varchar", "text", "char"]),
   ("varchar", ["string", "text", "char"]),
   ("float64", ["float", "double", "numeric"]),
   ("float", ["float64", "double", "numeric"]),
   ("timestamp", ["datetime", "date"]),
   ("datetime", ["timestamp", "date"])]

/-- The `numeric_types` family of
`DataRelationshipTester._check_type_compatibility`. -/
def tester_numeric_types : List String :=
  ["int64", "integer", "int32", "float64", "float", "double", "numeric"]

/-- The `string_types` family of
`DataRelationshipTester._check_type_compatibility`. -/
def tester_string_types : List String := ["string", "varchar", "text", "char"]

/-- Embedding of `DataRelationshipTester._check_type_compatibility` (Python
float literals embedded as exact rationals written with `mkRat`). -/
def check_type_compatibility (source_table target_table : TableSchema)
    (relationship : Relationship) : ℚ :=
  match find_column source_table relationship.source_column,
      find_column target_table relationship.target_column with
  | some source_column, some target_column =>
      let source_type := source_column.data_type.toLower
      let target_type := target_column.data_type.toLower
      if source_type == target_type then 1
      else if (match assocFind compatible_types source_type with
               | some l => l.contains target_type
               | none => false) then mkRat 8 10
      else if tester_numeric_types.contains source_type
          && tester_numeric_types.contains target_type then mkRat 6 10
      else if tester_string_types.contains source_type
          && tester_string_types.contains target_type then mkRat 6 10
      else mkRat 2 10
  | _, _ => 0

/-- Embedding of `DataRelationshipTester._calculate_frequency_distribution`:
a histogram as an insertion-ordered association list. -/
def calculate_frequency_distribution (values : List Int) : List (Int × Nat) :=
  values.foldl (fun freq v =>
    match assocFind freq v with
    | some n => assocSet freq v (n + 1)
    | none => assocSet freq v 1) []

/-- Embedding of `DataRelationshipTester._compare_value_distributions`.  The
Python set of common values is iterated in arbitrary order; here it is the
key order of the source histogram, which leaves the (order-independent) sum
and count unchanged. -/
def compare_value_distributions (source_values target_values : List Int) : ℚ :=
  if source_values = [] ∨ target_values = [] then 0
  else
    let source_freq := calculate_frequency_distribution source_values
    let target_freq := calculate_frequency_distribution target_values
    let common_values := (assocKeys source_freq).filter
      (fun v => (assocKeys target_freq).contains v)
    if common_values = [] then 0
    else
      let total_similarity := (common_values.map (fun v =>
        let source_ratio := (((assocFind source_freq v).getD 0 : ℚ)) / source_values.length
        let target_ratio := (((assocFind target_freq v).getD 0 : ℚ)) / target_values.length
        1 - |source_ratio - target_ratio|)).sum
      let common_coverage := (common_values.length : ℚ)
        / (max source_freq.length target_freq.length)
      let avg_similarity := total_similarity / common_values.length
      avg_similarity * common_coverage

/-- Embedding of `DataRelationshipTester._calculate_overall_confidence`: the
weighted average clamped into `[0,1]`. -/
def calculate_overall_confidence (referential_integrity type_compatibility
    distribution_similarity : ℚ) : ℚ :=
  pymin 1 (pymax 0
    (referential_integrity * mkRat 5 10
      + type_compatibility * mkRat 3 10
      + distribution_similarity * mkRat 2 10))

/-- Embedding of `DataRelationshipTester.test_relationship_with_data`: when
either sample is empty (in particular after a swallowed sample-source
failure) every score of the result is zero. -/
def test_relationship_with_data (src : SampleSource) (relationship : Relationship)
    (source_table target_table : TableSchema) (sample_size : Nat) : DataTestResult :=
  let source_sample := get_sample_data src relationship.source_table
    relationship.source_column sample_size
  let target_sample := get_sample_data src relationship.target_table
    relationship.target_column sample_size
  if source_sample = [] ∨ target_sample = [] then
    { referential_integrity := 0, type_compatibility := 0, distribution_similarity := 0
      overall_confidence := 0, sample_size := 0, orphan_count := 0
      total_source_records := 0 }
  else
    { referential_integrity := calculate_referential_integrity source_sample target_sample
      type_compatibility := check_type_compatibility source_table target_table relationship
      distribution_similarity := compare_value_distributions source_sample target_sample
      overall_confidence := calculate_overall_confidence
        (calculate_referential_integrity source_sample target_sample)
        (check_type_compatibility source_table target_table relationship)
        (compare_value_distributions source_sample target_sample)
      sample_size := source_sample.length
      orphan_count := source_sample.length
        - (source_sample.toFinset ∩ target_sample.toFinset).card
      total_source_records := source_sample.length }

/-- Name-to-table dict built at the start of
`EnhancedRelationshipDetector._apply_data_testing`
(`{table.table_id: table for table in all_tables}`: a repeated id keeps the
last table, as for a Python dict comprehension). -/
def build_table_map (all_tables : List TableSchema) : List (String × TableSchema) :=
  all_tables.foldl (fun m t => assocSet m t.table_id t) []

/-- Loop body of `EnhancedRelationshipDetector._apply_data_testing` for one
relationship, with the cache disabled (`self.cache = None`): missing table
schemas leave the relationship unmodified; a passing test boosts confidence
by `0.2` capped at `1.0` and tags the relationship type with
`_data_validated`; a failing test reduces confidence by `0.3` floored at
`0.1`. -/
def apply_data_testing_one (src : SampleSource) (threshold : ℚ) (sample_size : Nat)
    (table_map : List (String × TableSchema)) (relationship : Relationship) :
    Relationship :=
  match assocFind table_map relationship.source_table,
      assocFind table_map relationship.target_table with
  | some source_table, some target_table =>
      let test_result := test_relationship_with_data src relationship
        source_table target_table sample_size
      if threshold ≤ test_result.overall_confidence then
        { relationship with
            confidence := pymin 1 (relationship.confidence + mkRat 2 10)
            relationship_type := relationship.relationship_type ++ "_data_validated" }
      else
        { relationship with
            confidence := pymax (mkRat 1 10) (relationship.confidence - mkRat 3 10) }
  | _, _ => relationship

/-- Embedding of `EnhancedRelationshipDetector._apply_data_testing` with the
cache disabled: one output relationship per input, in order. -/
def apply_data_testing (src : SampleSource) (threshold : ℚ) (sample_size : Nat)
    (all_tables : List TableSchema) (relationships : List Relationship) :
    List Relationship :=
  if relationships = [] then relationships
  else relationships.map
    (apply_data_testing_one src threshold sample_size (build_table_map all_tables))

/-- Every relationship surviving `RelationshipDetector._filter_relationships`
comes from the input list. -/
theorem filter_relationships_subset (rels : List Relationship) :
    ∀ r ∈ filter_relationships rels, r ∈ rels := by
  intro r hr
  rw [filter_relationships] at hr
  by_cases h : rels = []
  · rw [if_pos h] at hr; exact hr
  · rw [if_neg h] at hr
    have h2 : r ∈ filteredStage rels := (dedupByPairGo_sublist _ []).subset hr
    rw [filteredStage] at h2
    obtain ⟨l', hl', hr'⟩ := List.mem_flatten.mp h2
    obtain ⟨kg, hkg, hfk⟩ := List.mem_map.mp hl'
    rw [← hfk] at hr'
    have hmem := filterPerTable_subset kg.2 r hr'
    rw [groupBySource_group rels kg hkg] at hmem
    exact (List.mem_filter.mp hmem).1

/-- Every relationship surviving
`EnhancedRelationshipDetector._filter_relationships` comes from the input
list. -/
theorem enhanced_filter_relationships_subset (maxRels : Nat) (minConf : ℚ)
    (preferred : List String) (rels : List Relationship) :
    ∀ r ∈ enhanced_filter_relationships maxRels minConf preferred rels, r ∈ rels := by
  intro r hr
  rw [enhanced_filter_relationships] at hr
  by_cases h : rels = []
  · rw [if_pos h] at hr; exact hr
  · rw [if_neg h] at hr
    obtain ⟨l', hl', hr'⟩ := List.mem_flatten.mp hr
    obtain ⟨kg, hkg, hfk⟩ := List.mem_map.mp hl'
    rw [← hfk] at hr'
    rcases enhancedTakeGo_subset maxRels minConf _ [] r hr' with h1 | h1
    · simp at h1
    · have hmem := mem_sortOrdered.mp h1
      rw [groupBySource_group rels kg hkg] at hmem
      exact (List.mem_filter.mp hmem).1

/-- The loop body of data testing keeps confidence inside `[0,1]`: the boost
is capped at `1.0`, the penalty is floored at `0.1`, and the
missing-table path leaves the value unchanged. -/
theorem apply_data_testing_one_bounds (src : SampleSource) (threshold : ℚ)
    (sample_size : Nat) (table_map : List (String × TableSchema))
    (rel : Relationship) (h0 : 0 ≤ rel.confidence) (h1 : rel.confidence ≤ 1) :
    0 ≤ (apply_data_testing_one src threshold sample_size table_map rel).confidence
    ∧ (apply_data_testing_one src threshold sample_size table_map rel).confidence ≤ 1 := by
  have h02 : (0 : ℚ) ≤ mkRat 2 10 := by norm_num [Rat.mkRat_eq_div]
  have h01 : (0 : ℚ) ≤ mkRat 1 10 := by norm_num [Rat.mkRat_eq_div]
  have h11 : (mkRat 1 10 : ℚ) ≤ 1 := by norm_num [Rat.mkRat_eq_div]
  have h03 : (0 : ℚ) ≤ mkRat 3 10 := by norm_num [Rat.mkRat_eq_div]
  rw [apply_data_testing_one]
  cases hs : assocFind table_map rel.source_table with
  | none => exact ⟨h0, h1⟩
  | some st =>
      cases ht : assocFind table_map rel.target_table with
      | none => exact ⟨h0, h1⟩
      | some tt =>
          dsimp only
          by_cases hth : threshold ≤
              (test_relationship_with_data src rel st tt sample_size).overall_confidence
          · rw [if_pos hth]
            dsimp only
            rw [pymin]
            by_cases hle : (1 : ℚ) ≤ rel.confidence + mkRat 2 10
            · rw [if_pos hle]
              norm_num
            · rw [if_neg hle]
              constructor
              · linarith
              · linarith [le_of_not_le hle]
          · rw [if_neg hth]
            dsimp only
            rw [pymax]
            by_cases hle : rel.confidence - mkRat 3 10 ≤ mkRat 1 10
            · rw [if_pos hle]
              exact ⟨h01, h11⟩
            · rw [if_neg hle]
              constructor
              · linarith [le_of_not_le hle]
              · linarith

/-- Claim C5: every pipeline stage keeps relationship confidences inside
`[0,1]`.  Relationships are created with confidence in `[0,1]` (enforced by
the pydantic validator `Field(..., ge=0.0, le=1.0)` on `Relationship`; taken
here as the hypothesis on the input list); conflict resolution and both
filtering implementations only select among their inputs; and the data
validator clamps the `+0.2` boost at `1.0` and floors the `-0.3` penalty at
`0.1`, so no adjustment can leave the interval. -/
theorem pipeline_confidence_bounds (rels : List Relationship) (maxRels : Nat)
    (minConf : ℚ) (preferred : List String) (src : SampleSource) (threshold : ℚ)
    (sample_size : Nat) (all_tables : List TableSchema)
    (h : ∀ r ∈ rels, 0 ≤ r.confidence ∧ r.confidence ≤ 1) :
    (∀ r ∈ resolve_relationship_conflicts rels, 0 ≤ r.confidence ∧ r.confidence ≤ 1)
    ∧ (∀ r ∈ filter_relationships rels, 0 ≤ r.confidence ∧ r.confidence ≤ 1)
    ∧ (∀ r ∈ enhanced_filter_relationships maxRels minConf preferred rels,
        0 ≤ r.confidence ∧ r.confidence ≤ 1)
    ∧ (∀ r ∈ apply_data_testing src threshold sample_size all_tables rels,
        0 ≤ r.confidence ∧ r.confidence ≤ 1) := by
  refine ⟨?_, ?_, ?_, ?_⟩
  · intro r hr
    exact h r (resolve_relationship_conflicts_subset rels r hr)
  · intro r hr
    exact h r (filter_relationships_subset rels r hr)
  · intro r hr
    exact h r (enhanced_filter_relationships_subset maxRels minConf preferred rels r hr)
  · intro r hr
    rw [apply_data_testing] at hr
    by_cases he : rels = []
    · rw [if_pos he] at hr
      exact h r hr
    · rw [if_neg he] at hr
      obtain ⟨rel, hrel, hmap⟩ := List.mem_map.mp hr
      obtain ⟨hb0, hb1⟩ := h rel hrel
      rw [← hmap]
      exact apply_data_testing_one_bounds src threshold sample_size _ rel hb0 hb1

/-- Concrete fact table for the scenarios below. -/
def tableFactOrders : TableSchema :=
  { table_id := "fact_orders", dataset_id := "analytics", project_id := "proj"
    columns := [{ name := "sale_id", data_type := "STRING", mode := "REQUIRED"
                  is_primary_key := true },
                { name := "user_id", data_type := "STRING", mode := "REQUIRED" }] }

/-- Concrete dimension table for the scenarios below. -/
def tableDimUsers : TableSchema :=
  { table_id := "dim_users", dataset_id := "analytics", project_id := "proj"
    columns := [{ name := "user_id", data_type := "STRING", mode := "REQUIRED"
                  is_primary_key := true }] }

/-- Sample source whose every query fails. -/
def failingSampleSource : SampleSource := fun _ _ _ => .error "query failed"

/-- Claim C3 (amended): when the sample source fails for a relationship's
source column (and both table schemas are present), the exception is
swallowed inside `_get_sample_data`, the test result is all-zero, and the
relationship is NOT returned unmodified: with a positive configured
threshold its confidence takes the failed-test penalty
`max(0.1, confidence - 0.3)`; with a threshold at most `0` the zero score
counts as a pass and it receives the `+0.2` boost (capped at `1.0`) and the
`_data_validated` relationship-type tag. -/
theorem apply_data_testing_one_sample_failure
    (src : SampleSource) (threshold : ℚ) (sample_size : Nat)
    (table_map : List (String × TableSchema)) (rel : Relationship)
    (st tt : TableSchema) (e : String)
    (hst : assocFind table_map rel.source_table = some st)
    (htt : assocFind table_map rel.target_table = some tt)
    (hfail : src rel.source_table rel.source_column sample_size = .error e) :
    apply_data_testing_one src threshold sample_size table_map rel =
      if threshold ≤ 0 then
        { rel with
            confidence := pymin 1 (rel.confidence + mkRat 2 10)
            relationship_type := rel.relationship_type ++ "_data_validated" }
      else
        { rel with confidence := pymax (mkRat 1 10) (rel.confidence - mkRat 3 10) } := by
  have hsample : get_sample_data src rel.source_table rel.source_column sample_size = [] := by
    rw [get_sample_data, hfail]
  have htest : test_relationship_with_data src rel st tt sample_size =
      { referential_integrity := 0, type_compatibility := 0, distribution_similarity := 0
        overall_confidence := 0, sample_size := 0, orphan_count := 0
        total_source_records := 0 } := by
    rw [test_relationship_with_data]
    simp [hsample]
  rw [apply_data_testing_one, hst, htt]
  dsimp only
  rw [htest]

/-- Counterexample for C3 as stated: with a sample source that always fails
and the standard threshold `0.7`, the data-testing pass changes the
relationship: its generator-assigned confidence `0.8` becomes
`max(0.1, 0.8 - 0.3) = 0.5`, so the relationship is not returned
unmodified. -/
theorem apply_data_testing_sample_failure_counterexample :
    apply_data_testing failingSampleSource (mkRat 7 10) 1000
        [tableFactOrders, tableDimUsers] [sampleRel] =
      [{ sampleRel with confidence := mkRat 1 2 }]
    ∧ ({ sampleRel with confidence := mkRat 1 2 } : Relationship) ≠ sampleRel := by
  have harith : pymax (mkRat 1 10) (sampleRel.confidence - mkRat 3 10) = mkRat 1 2 := by
    rw [pymax]
    have hc : ¬ (sampleRel.confidence - mkRat 3 10 ≤ mkRat 1 10) := by
      show ¬ (mkRat 8 10 - mkRat 3 10 ≤ mkRat 1 10)
      norm_num [Rat.mkRat_eq_div]
    rw [if_neg hc]
    show mkRat 8 10 - mkRat 3 10 = mkRat 1 2
    norm_num [Rat.mkRat_eq_div]
  have hstep : apply_data_testing failingSampleSource (mkRat 7 10) 1000
      [tableFactOrders, tableDimUsers] [sampleRel] =
      [{ sampleRel with
          confidence := pymax (mkRat 1 10) (sampleRel.confidence - mkRat 3 10) }] := rfl
  constructor
  · rw [hstep, harith]
  · intro h
    have hconf := congrArg Relationship.confidence h
    exact absurd hconf (by decide)

/-- Witness for C3 (amended): at the concrete failing source, tables and
threshold `0.7`, the amended theorem applies and yields the penalty
branch. -/
theorem apply_data_testing_one_sample_failure_witness :
    apply_data_testing_one failingSampleSource (mkRat 7 10) 1000
        (build_table_map [tableFactOrders, tableDimUsers]) sampleRel =
      { sampleRel with
          confidence := pymax (mkRat 1 10) (sampleRel.confidence - mkRat 3 10) } := by
  have h := apply_data_testing_one_sample_failure failingSampleSource (mkRat 7 10) 1000
    (build_table_map [tableFactOrders, tableDimUsers]) sampleRel
    tableFactOrders tableDimUsers "query failed" rfl rfl rfl
  rw [h]
  rw [if_neg (by norm_num [Rat.mkRat_eq_div] : ¬ ((mkRat 7 10 : ℚ) ≤ 0))]

/-- Witness for C5: the bounds instantiated on a concrete relationship list
whose confidences lie in `[0,1]`. -/
theorem pipeline_confidence_bounds_witness :
    (∀ r ∈ filter_relationships [sampleRel, sampleRelReversed],
      0 ≤ r.confidence ∧ r.confidence ≤ 1)
    ∧ (∀ r ∈ apply_data_testing failingSampleSource (mkRat 7 10) 1000
        [tableFactOrders, tableDimUsers] [sampleRel, sampleRelReversed],
      0 ≤ r.confidence ∧ r.confidence ≤ 1) := by
  have hin : ∀ r ∈ [sampleRel, sampleRelReversed], 0 ≤ r.confidence ∧ r.confidence ≤ 1 := by
    intro r hr
    rcases List.mem_cons.mp hr with rfl | hr'
    · constructor <;> norm_num [sampleRel, Rat.mkRat_eq_div]
    · rcases List.mem_cons.mp hr' with rfl | hr''
      · constructor <;> norm_num [sampleRelReversed, Rat.mkRat_eq_div]
      · simp at hr''
  obtain ⟨_, h2, _, h4⟩ := pipeline_confidence_bounds [sampleRel, sampleRelReversed]
    5 (mkRat 3 10) preferred_detection_methods failingSampleSource (mkRat 7 10) 1000
    [tableFactOrders, tableDimUsers] hin
  exact ⟨h2, h4⟩

/- ----------------------------------------------------------------------
Incremental processor (`incremental_processor.py`, class
`IncrementalProcessor`) and the orchestration of
`EnhancedRelationshipDetector.detect_relationships_enhanced`.
---------------------------------------------------------------------- -/

/-- Python code-point comparison on characters lifted to lists, the order
used by `sorted()` on strings. -/
def charListLe : List Char → List Char → Bool
  | [], _ => true
  | _ :: _, [] => false
  | a :: as, b :: bs =>
      if a.val < b.val then true
      else if b.val < a.val then false
      else charListLe as bs

/-- Python `<=` on strings (code-point lexicographic). -/
def pyStrLe (a b : String) : Bool := charListLe a.toList b.toList

/-- Python `sorted()` on a list of strings: stable ascending sort. -/
def sortStrings (l : List String) : List String := sortOrdered pyStrLe l

/-- Python `str()` of a boolean, as interpolated into the checksum string. -/
def pyBoolStr (b : Bool) : String := if b then "True" else "False"

/-- The per-column fragment
`f"{col.name}:{col.data_type}:{col.mode}:{col.is_primary_key}:{col.is_foreign_key}"`
of `IncrementalProcessor.get_table_checksum`. -/
def column_checksum_str (col : ColumnInfo) : String :=
  col.name ++ ":" ++ col.data_type ++ ":" ++ col.mode ++ ":"
    ++ pyBoolStr col.is_primary_key ++ ":" ++ pyBoolStr col.is_foreign_key

/-- Embedding of `IncrementalProcessor.get_table_checksum` up to the final
MD5 application: the source hashes exactly this string, and since MD5 is a
deterministic function, two tables get the same stored fingerprint exactly
when they produce the same pre-hash string (MD5 collisions aside). -/
def get_table_checksum (table : TableSchema) : String :=
  table.table_id ++ ":" ++ table.project_id ++ ":" ++ table.dataset_id ++ ":"
    ++ String.intercalate "|" (sortStrings (table.columns.map column_checksum_str))

/-- State of an `IncrementalProcessor`: the processed-table set, the
per-table relationship lists, and the stored fingerprints
(`last_processed` wall-clock timestamps are not consulted by table
selection and are omitted; persistence to the state file is elided). -/
structure IncState where
  processed_tables : List String
  relationship_graph : List (String × List Relationship)
  table_checksums : List (String × String)
deriving DecidableEq, Repr

/-- Embedding of `IncrementalProcessor._initialize_empty_state` (also the
state of a fresh processor with no state file). -/
def emptyIncState : IncState :=
  { processed_tables := [], relationship_graph := [], table_checksums := [] }

/-- Embedding of `IncrementalProcessor.is_table_changed`: the current
fingerprint differs from the stored one (a table with no stored fingerprint
counts as changed). -/
def is_table_changed (st : IncState) (table : TableSchema) : Bool :=
  match assocFind st.table_checksums table.table_id with
  | some stored => get_table_checksum table != stored
  | none => true

/-- Embedding of `IncrementalProcessor.get_tables_to_process`: tables that
are new or whose fingerprint changed. -/
def get_tables_to_process (st : IncState) (all_tables : List TableSchema) :
    List TableSchema :=
  all_tables.filter (fun t =>
    !(st.processed_tables.contains t.table_id) || is_table_changed st t)

/-- Embedding of `IncrementalProcessor.get_all_relationships`: the
concatenation of every stored per-table relationship list, in insertion
order of the graph dict. -/
def get_all_relationships (st : IncState) : List Relationship :=
  (st.relationship_graph.map Prod.snd).flatten

/-- Embedding of `IncrementalProcessor.update_table_relationships`. -/
def update_table_relationships (st : IncState) (table_name : String)
    (relationships : List Relationship) : IncState :=
  { st with relationship_graph := assocSet st.relationship_graph table_name relationships }

/-- Embedding of `IncrementalProcessor.mark_table_processed`: the Python set
`processed_tables` is embedded as a list with add-if-absent (only membership
is ever consulted). -/
def mark_table_processed (st : IncState) (table : TableSchema) : IncState :=
  { st with
      processed_tables :=
        if st.processed_tables.contains table.table_id then st.processed_tables
        else st.processed_tables ++ [table.table_id]
      table_checksums :=
        assocSet st.table_checksums table.table_id (get_table_checksum table) }

/-- One iteration of the state-update loop of
`detect_relationships_enhanced` (lines 98 to 102): store, for a processed
table, the filtered relationships in which it is source or target, and mark
it processed. -/
def process_table_state (filtered : List Relationship) (s : IncState)
    (t : TableSchema) : IncState :=
  mark_table_processed
    (update_table_relationships s t.table_id
      (filtered.filter (fun r =>
        r.source_table == t.table_id || r.target_table == t.table_id)))
    t

/-- Embedding of `EnhancedRelationshipDetector.detect_relationships_enhanced`
with incremental processing on, caching off, data testing off and sequential
execution; `detect` abstracts the delegated
`RelationshipDetector.detect_relationships` call on the tables selected for
processing, and the filtering parameters come from the pattern
configuration. -/
def detect_relationships_enhanced (detect : List TableSchema → List Relationship)
    (maxRels : Nat) (minConf : ℚ) (preferred : List String)
    (st : IncState) (tables : List TableSchema) : List Relationship × IncState :=
  let tables_to_process := get_tables_to_process st tables
  let existing_relationships := get_all_relationships st
  if tables_to_process.isEmpty then (existing_relationships, st)
  else
    let new_relationships := detect tables_to_process
    let filtered_relationships :=
      enhanced_filter_relationships maxRels minConf preferred new_relationships
    let st' := tables_to_process.foldl (process_table_state filtered_relationships) st
    (existing_relationships ++ filtered_relationships, st')

/- Lemmas about the incremental state updates of
`detect_relationships_enhanced`. -/

theorem process_table_state_checksums (f : List Relationship) (s : IncState)
    (t : TableSchema) :
    (process_table_state f s t).table_checksums =
      assocSet s.table_checksums t.table_id (get_table_checksum t) := rfl

theorem process_table_state_contains_self (f : List Relationship) (s : IncState)
    (t : TableSchema) :
    (process_table_state f s t).processed_tables.contains t.table_id = true := by
  show (if s.processed_tables.contains t.table_id then s.processed_tables
    else s.processed_tables ++ [t.table_id]).contains t.table_id = true
  by_cases h : s.processed_tables.contains t.table_id
  · rw [if_pos h]; exact h
  · rw [if_neg h]
    simp

theorem process_table_state_contains_mono (f : List Relationship) (s : IncState)
    (t : TableSchema) (id : String)
    (h : s.processed_tables.contains id = true) :
    (process_table_state f s t).processed_tables.contains id = true := by
  show (if s.processed_tables.contains t.table_id then s.processed_tables
    else s.processed_tables ++ [t.table_id]).contains id = true
  by_cases h2 : s.processed_tables.contains t.table_id
  · rw [if_pos h2]; exact h
  · rw [if_neg h2]
    have hm := List.mem_of_elem_eq_true h
    exact List.elem_eq_true_of_mem (List.mem_append.mpr (Or.inl hm))

theorem foldl_process_contains_mono (f : List Relationship) (ts : List TableSchema)
    (id : String) :
    ∀ s : IncState, s.processed_tables.contains id = true →
      ((ts.foldl (process_table_state f) s).processed_tables.contains id = true) := by
  induction ts with
  | nil => intro s h; exact h
  | cons t ts' ih =>
      intro s h
      rw [List.foldl_cons]
      exact ih _ (process_table_state_contains_mono f s t id h)

theorem foldl_process_checksum_preserve (f : List Relationship) (ts : List TableSchema)
    (id : String) (h : id ∉ ts.map TableSchema.table_id) :
    ∀ s : IncState,
      assocFind ((ts.foldl (process_table_state f) s).table_checksums) id =
        assocFind s.table_checksums id := by
  induction ts with
  | nil => intro s; rfl
  | cons t ts' ih =>
      rw [List.map_cons] at h
      intro s
      rw [List.foldl_cons]
      have hne : id ≠ t.table_id := by
        intro he
        exact h (he ▸ List.mem_cons_self _ _)
      rw [ih (fun hm => h (List.mem_cons_of_mem _ hm)) _]
      rw [process_table_state_checksums]
      exact assocFind_set_ne _ _ _ _ hne

theorem foldl_process_spec (f : List Relationship) (ts : List TableSchema)
    (hnd : (ts.map TableSchema.table_id).Nodup) :
    ∀ s : IncState, ∀ t ∈ ts,
      assocFind ((ts.foldl (process_table_state f) s).table_checksums) t.table_id =
        some (get_table_checksum t)
      ∧ ((ts.foldl (process_table_state f) s).processed_tables.contains t.table_id
          = true) := by
  induction ts with
  | nil => intro s t ht; simp at ht
  | cons t0 ts' ih =>
      rw [List.map_cons, List.nodup_cons] at hnd
      intro s t ht
      rw [List.foldl_cons]
      rcases List.mem_cons.mp ht with rfl | ht'
      · constructor
        · rw [foldl_process_checksum_preserve f ts' t.table_id hnd.1]
          rw [process_table_state_checksums]
          exact assocFind_set_self _ _ _
        · exact foldl_process_contains_mono f ts' t.table_id _
            (process_table_state_contains_self f s t)
      · exact ih hnd.2 _ t ht'

/-- A run in which no table is selected returns the stored relationships and
leaves the state untouched (the early return of
`detect_relationships_enhanced`, lines 73 to 75). -/
theorem detect_relationships_enhanced_skip (detect : List TableSchema → List Relationship)
    (maxRels : Nat) (minConf : ℚ) (preferred : List String) (st : IncState)
    (tables : List TableSchema) (h : get_tables_to_process st tables = []) :
    detect_relationships_enhanced detect maxRels minConf preferred st tables =
      (get_all_relationships st, st) := by
  rw [detect_relationships_enhanced, h]
  rfl

/-- A run with a nonempty selection: result and state spelled out. -/
theorem detect_relationships_enhanced_run (detect : List TableSchema → List Relationship)
    (maxRels : Nat) (minConf : ℚ) (preferred : List String) (st : IncState)
    (tables : List TableSchema)
    (h : (get_tables_to_process st tables).isEmpty = false) :
    detect_relationships_enhanced detect maxRels minConf preferred st tables =
      (get_all_relationships st
        ++ enhanced_filter_relationships maxRels minConf preferred
            (detect (get_tables_to_process st tables)),
       (get_tables_to_process st tables).foldl
          (process_table_state (enhanced_filter_relationships maxRels minConf preferred
            (detect (get_tables_to_process st tables)))) st) := by
  rw [detect_relationships_enhanced]
  dsimp only
  rw [if_neg (by simp [h])]

/-- Claim C1 (amended): starting from empty incremental state, after a first
run of `detect_relationships_enhanced` over tables with distinct
identifiers, a second run over the same tables (so no fingerprint differs)
selects zero tables for (re)generation and returns exactly
`get_all_relationships` of the stored state, i.e. the concatenation of every
processed table's stored relationship list, with the state unchanged.
Because the first run stores a relationship under each of its endpoint
tables, a relationship whose source and target were both processed is
returned once per endpoint — twice — rather than once. -/
theorem detect_relationships_enhanced_incremental
    (detect : List TableSchema → List Relationship) (maxRels : Nat) (minConf : ℚ)
    (preferred : List String) (tables : List TableSchema)
    (hnd : (tables.map TableSchema.table_id).Nodup) :
    get_tables_to_process
        (detect_relationships_enhanced detect maxRels minConf preferred
          emptyIncState tables).2 tables = []
    ∧ detect_relationships_enhanced detect maxRels minConf preferred
        (detect_relationships_enhanced detect maxRels minConf preferred
          emptyIncState tables).2 tables =
      (get_all_relationships
          (detect_relationships_enhanced detect maxRels minConf preferred
            emptyIncState tables).2,
        (detect_relationships_enhanced detect maxRels minConf preferred
          emptyIncState tables).2) := by
  have httl0 : get_tables_to_process emptyIncState tables = tables := by
    rw [get_tables_to_process]
    apply List.filter_eq_self.mpr
    intro t _
    simp [emptyIncState]
  by_cases hemp : tables = []
  · subst hemp
    exact ⟨rfl, rfl⟩
  · have hne : tables.isEmpty = false := by
      cases tables with
      | nil => exact absurd rfl hemp
      | cons a l => rfl
    have hrun1 := detect_relationships_enhanced_run detect maxRels minConf preferred
      emptyIncState tables (by rw [httl0]; exact hne)
    have hst1 : (detect_relationships_enhanced detect maxRels minConf preferred
        emptyIncState tables).2 =
        (get_tables_to_process emptyIncState tables).foldl
          (process_table_state (enhanced_filter_relationships maxRels minConf preferred
            (detect (get_tables_to_process emptyIncState tables)))) emptyIncState := by
      rw [hrun1]
    have hsel : get_tables_to_process
        (detect_relationships_enhanced detect maxRels minConf preferred
          emptyIncState tables).2 tables = [] := by
      rw [hst1, httl0, get_tables_to_process]
      apply List.filter_eq_nil_iff.mpr
      intro t ht
      obtain ⟨hck, hcont⟩ := foldl_process_spec
        (enhanced_filter_relationships maxRels minConf preferred (detect tables))
        tables hnd emptyIncState t ht
      have hmem := List.mem_of_elem_eq_true hcont
      simp [hcont, is_table_changed, hck, hmem]
    exact ⟨hsel, detect_relationships_enhanced_skip detect maxRels minConf preferred
      _ tables hsel⟩

/-- Counterexample for C1 as stated: two tables and one relationship
connecting them.  The first run returns the relationship once, the second
run selects no tables — but returns the stored relationships with the
connecting relationship appearing twice, once per endpoint table, because
`update_table_relationships` stored it under both tables and
`get_all_relationships` concatenates all per-table lists. -/
theorem detect_relationships_enhanced_double_count_counterexample :
    (detect_relationships_enhanced (fun _ => [sampleRel]) 5 (mkRat 3 10)
        preferred_detection_methods emptyIncState
        [tableFactOrders, tableDimUsers]).1 = [sampleRel]
    ∧ get_tables_to_process
        (detect_relationships_enhanced (fun _ => [sampleRel]) 5 (mkRat 3 10)
          preferred_detection_methods emptyIncState
          [tableFactOrders, tableDimUsers]).2 [tableFactOrders, tableDimUsers] = []
    ∧ (detect_relationships_enhanced (fun _ => [sampleRel]) 5 (mkRat 3 10)
        preferred_detection_methods
        (detect_relationships_enhanced (fun _ => [sampleRel]) 5 (mkRat 3 10)
          preferred_detection_methods emptyIncState
          [tableFactOrders, tableDimUsers]).2
        [tableFactOrders, tableDimUsers]).1 = [sampleRel, sampleRel] := by
  refine ⟨by decide, by decide, by decide⟩

/-- Witness for C1 (amended): the amended theorem applied to the concrete
two-table run. -/
theorem detect_relationships_enhanced_incremental_witness :
    get_tables_to_process
        (detect_relationships_enhanced (fun _ => [sampleRel]) 5 (mkRat 3 10)
          preferred_detection_methods emptyIncState
          [tableFactOrders, tableDimUsers]).2 [tableFactOrders, tableDimUsers] = []
    ∧ detect_relationships_enhanced (fun _ => [sampleRel]) 5 (mkRat 3 10)
        preferred_detection_methods
        (detect_relationships_enhanced (fun _ => [sampleRel]) 5 (mkRat 3 10)
          preferred_detection_methods emptyIncState
          [tableFactOrders, tableDimUsers]).2 [tableFactOrders, tableDimUsers] =
      (get_all_relationships
          (detect_relationships_enhanced (fun _ => [sampleRel]) 5 (mkRat 3 10)
            preferred_detection_methods emptyIncState
            [tableFactOrders, tableDimUsers]).2,
        (detect_relationships_enhanced (fun _ => [sampleRel]) 5 (mkRat 3 10)
          preferred_detection_methods emptyIncState
          [tableFactOrders, tableDimUsers]).2) :=
  detect_relationships_enhanced_incremental (fun _ => [sampleRel]) 5 (mkRat 3 10)
    preferred_detection_methods [tableFactOrders, tableDimUsers] (by decide)

/- ----------------------------------------------------------------------
Relationship cache (`relationship_cache.py`, class `RelationshipCache`).
The in-memory dict and the on-disk directory of `<key>.json` files are each
embedded as insertion-ordered association lists from cache key to stored
relationship.
---------------------------------------------------------------------- -/

/-- State of a `RelationshipCache`: the in-memory map `self.memory_cache`
and the set of persisted `<key>.json` files in `self.cache_dir`. -/
structure CacheState where
  memory : List (String × Relationship)
  disk : List (String × Relationship)
deriving DecidableEq, Repr

/-- Embedding of `RelationshipCache.get_cache_key`: sort the two table names
and join them with an underscore, so the key is order-independent. -/
def get_cache_key (table1 table2 : String) : String :=
  if table1 ≤ table2 then table1 ++ "_" ++ table2 else table2 ++ "_" ++ table1

/-- Embedding of `RelationshipCache.clear_cache`.  With a pattern, the keys
to remove are collected from the in-memory map only (`for key in
self.memory_cache`), each removed from memory and its disk file unlinked;
with no pattern, the memory map is cleared and every `*.json` file in the
cache directory is unlinked. -/
def clear_cache (st : CacheState) (table_pattern : Option String) : CacheState :=
  match table_pattern with
  | some pat =>
      let keys_to_remove := ((st.memory.map Prod.fst).filter fun k => strContainsSub k pat)
      { memory := st.memory.filter fun kv => !(strContainsSub kv.1 pat)
        disk := st.disk.filter fun kv => !(keys_to_remove.contains kv.1) }
  | none => { memory := [], disk := [] }

/-- Witness for C4: in a group of two candidates with the same identity key
and equal confidence where only the second is custom, the survivor exists,
carries the group's top confidence, and is custom. -/
theorem resolve_relationship_conflicts_spec_witness :
    ∃ r', r' ∈ resolve_relationship_conflicts [sampleRel, sampleRelCustom]
      ∧ relKey r' = relKey sampleRel
      ∧ sampleRel.confidence ≤ r'.confidence
      ∧ r'.is_custom = true := by
  obtain ⟨h1, h2, h3⟩ := resolve_relationship_conflicts_spec [sampleRel, sampleRelCustom]
  obtain ⟨r', hmem, hkey⟩ := h2 sampleRel (by simp)
  obtain ⟨hin, hconf, hcust, hfirst⟩ := h3 r' hmem
  have hkeyc : relKey sampleRelCustom = relKey r' := by
    rw [hkey]; decide
  have hconfc : sampleRelCustom.confidence = r'.confidence := by
    rcases List.mem_cons.mp hin with h | h
    · rw [h]; rfl
    · rcases List.mem_cons.mp h with h' | h'
      · rw [h']
      · simp at h'
  exact ⟨r', hmem, hkey, hconf sampleRel (by simp) hkey.symm,
    hcust sampleRelCustom (by simp) hkeyc hconfc rfl⟩

/- ----------------------------------------------------------------------
Theorems for claims C7, C8, C9, C10.
---------------------------------------------------------------------- -/

/-- Claim C7: the referential-integrity score equals the number of distinct
source values also present among the target values divided by the number of
distinct source values, is `0` when there are no source samples, is `1`
whenever the source values are contained in the target values, and is `0`
when the two value sets are disjoint. -/
theorem referential_integrity_formula (source target : List Int) :
    (source ≠ [] → calculate_referential_integrity source target =
      ((source.toFinset ∩ target.toFinset).card : ℚ) / (source.toFinset.card : ℚ))
    ∧ (source = [] → calculate_referential_integrity source target = 0)
    ∧ (source ≠ [] → source.toFinset ⊆ target.toFinset →
        calculate_referential_integrity source target = 1)
    ∧ (Disjoint source.toFinset target.toFinset →
        calculate_referential_integrity source target = 0) := by
  have hcard : source ≠ [] → 0 < source.toFinset.card := by
    intro h
    refine Finset.card_pos.mpr (Finset.nonempty_iff_ne_empty.mpr ?_)
    intro he
    exact h (by simpa using he)
  refine ⟨?_, ?_, ?_, ?_⟩
  · intro h
    rw [calculate_referential_integrity, if_neg h, if_pos (hcard h)]
  · intro h
    rw [calculate_referential_integrity, if_pos h]
  · intro h hsub
    rw [calculate_referential_integrity, if_neg h, if_pos (hcard h),
      Finset.inter_eq_left.mpr hsub]
    have : (source.toFinset.card : ℚ) ≠ 0 := by
      exact_mod_cast Nat.pos_iff_ne_zero.mp (hcard h)
    exact div_self this
  · intro hdis
    rw [calculate_referential_integrity]
    by_cases h : source = []
    · rw [if_pos h]
    · rw [if_neg h]
      simp [Finset.disjoint_iff_inter_eq_empty.mp hdis]

/-- Witness for C7: concrete evaluations, including the spec scenario with
source samples `{1,2,3}` and target samples `{2,3,4}` giving `2/3`. -/
theorem referential_integrity_formula_witness :
    calculate_referential_integrity [1, 2, 3] [2, 3, 4] = 2/3
    ∧ calculate_referential_integrity [1, 2] [1, 2, 3] = 1
    ∧ calculate_referential_integrity [1, 2] [3, 4] = 0
    ∧ calculate_referential_integrity [] [3, 4] = 0 := by
  refine ⟨?_, ?_, ?_, ?_⟩
  · have h := (referential_integrity_formula [1, 2, 3] [2, 3, 4]).1 (by decide)
    have h1 : (([1, 2, 3] : List Int).toFinset ∩ ([2, 3, 4] : List Int).toFinset).card = 2 := by
      decide
    have h2 : (([1, 2, 3] : List Int).toFinset).card = 3 := by decide
    rw [h, h1, h2]
    norm_num
  · exact (referential_integrity_formula [1, 2] [1, 2, 3]).2.2.1 (by decide) (by decide)
  · refine (referential_integrity_formula [1, 2] [3, 4]).2.2.2 ?_
    rw [Finset.disjoint_left]
    decide
  · exact (referential_integrity_formula [] [3, 4]).2.1 rfl

/-- Claim C8: the schema annotator is idempotent; running
`parse_table_schema` twice yields exactly the same table (hence the same
`is_primary_key` and `is_foreign_key` flags on every column) as running it
once, because each column's recomputed flags depend only on the column's
name, declared type and mode together with the table identifier. -/
theorem parse_table_schema_idempotent (schema : TableSchema) :
    parse_table_schema (parse_table_schema schema) = parse_table_schema schema := by
  simp only [parse_table_schema, List.map_map]
  rfl

/-- Claim C9: `analyze_schema_complexity` returns `None` for every table
schema; the complexity-metrics dictionary is constructed in the body but the
function has no `return` statement, so the metrics are never delivered. -/
theorem analyze_schema_complexity_returns_none (schema : TableSchema) :
    analyze_schema_complexity schema = none := rfl

/-- Claim C10: pattern-based cache clearing consults only the keys of the
in-memory map, so a disk entry whose key matches the pattern but was never
loaded into memory survives `clear_cache(pattern)` (here, with empty memory,
the whole disk is untouched even though the key contains the pattern),
whereas `clear_cache` with no pattern removes every disk entry. -/
theorem clear_cache_pattern_memory_only :
    (clear_cache { memory := [], disk := [("dim_users_fact_orders", sampleRel)] }
        (some "users")).disk = [("dim_users_fact_orders", sampleRel)]
    ∧ strContainsSub "dim_users_fact_orders" "users" = true
    ∧ (∀ st : CacheState, clear_cache st none = { memory := [], disk := [] }) :=
  ⟨rfl, by decide, fun _ => rfl⟩

end BqErd
